import Mathlib

/-!
Verification development for the `utter` deep pretty printer
(structural walker with cycle detection, `dump.go`).

The embedding models Go runtime values as an inductive type `GoValue`.
Pointer referents live in an explicit heap (an association list from
addresses to values) so that reference cycles are representable.  The
recursive `dump` routine of `dump.go` is embedded as a fuel-indexed
function `dumpFuel`; `none` means the given fuel was exhausted (the
source function would still be running), never an error.
-/

namespace Utter

/-- Addresses (Go `uintptr` identities of pointer referents). -/
abbrev Addr := Nat

/-- The `reflect.Kind` classification used by `dump.go` (`isDefault`,
`isCompound`, the dispatch switch). -/
inductive GoKind where
  | kInvalid | kBool
  | kInt | kInt8 | kInt16 | kInt32 | kInt64
  | kUint | kUint8 | kUint16 | kUint32 | kUint64 | kUintptr
  | kFloat32 | kFloat64 | kComplex64 | kComplex128
  | kString | kPtr | kSlice | kArray | kMap | kStruct | kInterface
  | kChan | kFunc | kUnsafePointer | kOther
  deriving DecidableEq, Repr

/-- The fragment of `reflect.Type` consumed by `dump.go`: the
`String()` rendering, `Name()`, `PkgPath()` and `Kind()`. -/
structure TypeInfo where
  str : String
  name : String
  pkgPath : String
  kind : GoKind
  deriving DecidableEq, Repr

instance : Inhabited TypeInfo := ⟨⟨"", "", "", .kOther⟩⟩

/-- A Go runtime value as seen through `reflect.Value` by `dump.go`.
Pointers carry the referent's address (`none` for a nil pointer); the
referent itself is stored in a separate heap.  Floating point and
complex payloads are carried as their decimal text (the literal
formatting helpers of the repository are not under analysis).  `vOther`
stands for kinds not enumerated in the dispatch switch (the `default`
arm), carrying its generic `%v` text. A struct field is
(name, pkgPath, value); a nonempty pkgPath marks an unexported field. -/
inductive GoValue where
  | vBool (ty : TypeInfo) (b : Bool)
  | vInt (ty : TypeInfo) (n : Int)
  | vUint (ty : TypeInfo) (n : Nat)
  | vFloat (ty : TypeInfo) (val : String)
  | vComplex (ty : TypeInfo) (val : String)
  | vString (ty : TypeInfo) (s : String)
  | vUintptr (ty : TypeInfo) (n : Nat)
  | vChanFunc (ty : TypeInfo) (addr : Nat)
  | vPtr (ty : TypeInfo) (addr : Option Addr)
  | vSlice (ty : TypeInfo) (nilSlice : Bool) (elems : List GoValue)
  | vArray (ty : TypeInfo) (elems : List GoValue)
  | vMap (ty : TypeInfo) (nilMap : Bool) (pairs : List (GoValue × GoValue))
  | vStruct (ty : TypeInfo) (fields : List (String × String × GoValue))
  | vIface (ty : TypeInfo) (inner : Option GoValue)
  | vOther (ty : TypeInfo) (text : String)
  | vInvalid

/-- The heap: addresses of pointer referents and the values stored
there.  Finite by construction. -/
abbrev HeapT := List (Addr × GoValue)

/-- Heap lookup (`reflect.Value.Elem` on a non-nil pointer). -/
def lookupHeap (h : HeapT) (a : Addr) : Option GoValue :=
  match h.find? (fun e => e.1 == a) with
  | some e => some e.2
  | none => none

/-- The pointer-tracking table `dumpState.pointers`:
address ↦ depth at which it was recorded. -/
abbrev PtrMap := List (Addr × Nat)

/-- Lookup in the pointer table (`d.pointers[addr]`). -/
def lookupPtr (p : PtrMap) (a : Addr) : Option Nat :=
  match p.find? (fun e => e.1 == a) with
  | some e => some e.2
  | none => none

/-- Insertion into the pointer table (`d.pointers[addr] = d.depth`);
a Go map holds one entry per key, so any previous entry is dropped. -/
def insertPtr (p : PtrMap) (a : Addr) (d : Nat) : PtrMap :=
  (a, d) :: p.filter (fun e => !(e.1 == a))

/-- The purge at the top of `dumpPtr`/`walkPtr`: delete every entry
recorded at a depth `≥ d` (keep the strictly shallower entries). -/
def purgePtr (d : Nat) (p : PtrMap) : PtrMap :=
  p.filter (fun e => decide (e.2 < d))

/-- `ConfigState`, restricted to the fields read by `dump.go`.
Modelled from the spec: the configuration object itself lives outside
the analysed files; fields and defaults follow §6 of the spec. -/
structure ConfigState where
  Indent : String := " "
  SortKeys : Bool := false
  IgnoreUnexported : Bool := false
  ElideType : Bool := false
  CommentPointers : Bool := false
  BytesWidth : Nat := 16
  CommentBytes : Bool := true
  deriving DecidableEq, Repr

/-- `dumpState` minus the writer and config: the output accumulated so
far stands in for the `io.Writer`. -/
structure DState where
  out : String
  depth : Nat
  pointers : PtrMap
  ignoreNextType : Bool
  ignoreNextIndent : Bool
  deriving DecidableEq, Repr

/-- Append text to the output (a `d.w.Write` call). -/
def write (s : String) (st : DState) : DState :=
  { st with out := st.out ++ s }

/-! Byte constants of the package (they live in a file outside the
analysed sources).  Modelled from the spec and pinned, where possible,
by the expected outputs in the repository's tests. -/

def ampersandBytes : String := "&"
def openParenBytes : String := "("
def closeParenBytes : String := ")"
def nilBytes : String := "nil"
def nilAngleBytes : String := "<nil>"
def invalidAngleBytes : String := "<invalid>"
def circularBytes : String := "<circular>"
def interfaceBytes : String := "interface{}"
def interfaceTypeBytes : String := "interface {}"
def openBraceNewlineBytes : String := "\x7b\n"
def closeBraceBytes : String := "\x7d"
def commaNewlineBytes : String := ",\n"
def colonSpaceBytes : String := ": "
def newlineBytes : String := "\n"
def openCommentBytes : String := "("
def closeCommentBytes : String := ")"
def pointerChainBytes : String := "->"
def hexZeroBytes : String := "0x"

/-- Repeat a string `n` times (`bytes.Repeat`). -/
def repeatStr (s : String) (n : Nat) : String :=
  String.join (List.replicate n s)

/-- Lower-case hexadecimal rendering of a natural number
(`strconv.FormatUint(v, 16)`). -/
def hexStr (n : Nat) : String :=
  Nat.toDigits 16 n |> String.mk

/-- Hexadecimal with at least two digits, as used per byte in the hex
block (`0x01` style rows in the tests). -/
def hexByte (n : Nat) : String :=
  let s := hexStr (n % 256)
  if s.length = 1 then "0" ++ s else s

/-- Modelled from the spec: `printHexPtr` (literal-formatting helper,
file not under analysis) renders an address-sized integer as a
hexadecimal literal; the zero value renders bare, as pinned by the
`data: 0` expectation in the repository's elision test. -/
def printHexPtr (n : Nat) (_comment : Bool) : String :=
  if n = 0 then "0" else hexZeroBytes ++ hexStr n

/-- Modelled from the spec: `printFloat` (literal-formatting helper,
file not under analysis).  The payload is already decimal text; when
the type annotation was elided the value must read as a floating
literal, so a missing decimal point gains `.0` (the tests expect
`1.0` for an elided `float64(1)` and `float32(1)` otherwise). -/
def printFloat (val : String) (elided : Bool) : String :=
  if elided && !(val.data.contains '.') then val ++ ".0" else val

/-- Modelled from the spec: `printBool` writes `true`/`false`. -/
def printBool (b : Bool) : String := if b then "true" else "false"

/-- Modelled from the spec: `printInt` writes the decimal form. -/
def printInt (n : Int) : String := toString n

/-- Modelled from the spec: `printUint` with base 16 writes bare
lower-case hex digits (the test expects `uint8(0x40)`, the `0x` prefix
being written separately by `dump`). -/
def printUint (n : Nat) : String := hexStr n

/-- Modelled from the spec: `strconv.Quote` (standard library).  The
claims under analysis do not depend on escape details, so quoting is
modelled as wrapping in double quotes. -/
def goQuote (s : String) : String := "\"" ++ s ++ "\""

/-- `isDefault` (dump.go): whether the type is a default type absent
of context. -/
def isDefaultT (typ : TypeInfo) : Bool :=
  if typ.pkgPath ≠ "" ∨ typ.name = "" then false
  else decide (typ.kind = .kInt) || decide (typ.kind = .kFloat64)
    || decide (typ.kind = .kString) || decide (typ.kind = .kBool)

/-- `isCompound` (dump.go) on the value's own kind: struct, slice,
array or map. -/
def isCompoundV : GoValue → Bool
  | .vStruct _ _ => true
  | .vSlice _ _ _ => true
  | .vArray _ _ => true
  | .vMap _ _ _ => true
  | _ => false

/-- Whether the value's kind is `reflect.Ptr`. -/
def isPtrV : GoValue → Bool
  | .vPtr _ _ => true
  | _ => false

/-- Whether the value is a nil interface
(`kind == reflect.Interface && v.IsNil()`). -/
def isNilIfaceV : GoValue → Bool
  | .vIface _ none => true
  | _ => false

/-- The value's `reflect.Type` (`v.Type()`). -/
def typeOf : GoValue → TypeInfo
  | .vBool ty _ => ty
  | .vInt ty _ => ty
  | .vUint ty _ => ty
  | .vFloat ty _ => ty
  | .vComplex ty _ => ty
  | .vString ty _ => ty
  | .vUintptr ty _ => ty
  | .vChanFunc ty _ => ty
  | .vPtr ty _ => ty
  | .vSlice ty _ _ => ty
  | .vArray ty _ => ty
  | .vMap ty _ _ => ty
  | .vStruct ty _ => ty
  | .vIface ty _ => ty
  | .vOther ty _ => ty
  | .vInvalid => default

/-- `unpackValue` (dump.go): returns the value inside a non-nil
interface, the `wasPtr` flag (`v.Kind() == reflect.Ptr` of the packed
value, hence `false` for an interface) and the `static` flag (`false`
exactly when an interface was unpacked). -/
def unpackValue : GoValue → GoValue × Bool × Bool
  | .vIface _ (some w) => (w, false, false)
  | v => (v, isPtrV v, true)

/-- `indent` (dump.go): consume the one-shot suppression flag, or
write `cs.Indent` repeated `depth` times. -/
def indentD (cfg : ConfigState) (st : DState) : DState :=
  if st.ignoreNextIndent then { st with ignoreNextIndent := false }
  else write (repeatStr cfg.Indent st.depth) st

/-- The type-annotation decision of `dump` (dump.go lines 264–268):
with `ElideType` set, the annotation is wanted unless the value is
static or of a default type not reached through a pointer, except that
compound kinds always show their type and a nil interface never
does. -/
def wantTypeB (cfg : ConfigState) (wasPtr static : Bool) (v : GoValue) : Bool :=
  if cfg.ElideType then
    let defType := !wasPtr && isDefaultT (typeOf v)
    (!(static || defType) || isCompoundV v) && !(isNilIfaceV v)
  else true

/-- Replacement of every non-overlapping occurrence of `pat` working
left to right (`bytes.Replace(s, pat, rep, -1)`), over the character
list with the list's length as fuel. -/
def replaceCharsF (pat rep : List Char) : Nat → List Char → List Char
  | _, [] => []
  | 0, l => l
  | Nat.succ f, c :: cs =>
    if pat.isPrefixOf (c :: cs) then
      rep ++ replaceCharsF pat rep f (List.drop pat.length (c :: cs))
    else c :: replaceCharsF pat rep f cs

/-- `bytes.Replace(typeBytes, interfaceTypeBytes, interfaceBytes, -1)`:
every `interface {}` in a type name is shortened to `interface{}`. -/
def replaceIfaceType (s : String) : String :=
  String.mk (replaceCharsF interfaceTypeBytes.data interfaceBytes.data s.length s.data)

/-- Whether a type name begins with the reference marker `*`
(`typeBytes[0] == '*'` in `dumpPtr`). -/
def startsStar (s : String) : Bool := decide (s.data.head? = some '*')

/-! ### Key sorting (spec-modelled)

`sortValues` lives in a repository file that is not under analysis.
Modelled from the spec (§4.3) and the package documentation: keys of
naturally ordered native scalar kinds (bool, ints, uints, floats,
uintptr, strings) compare by value; every other kind falls back to the
`reflect.Value.String()` rendering, which for non-string kinds is the
type-based text `<T Value>`. -/

/-- Modelled from the spec: `reflect.Value.String()` — the string
payload for string kinds, the `<T Value>` placeholder otherwise. -/
def valueSortString (v : GoValue) : String :=
  match v with
  | .vString _ s => s
  | w => "<" ++ (typeOf w).str ++ " Value>"

/-- Lexicographic text comparison over the character lists (Go's `<`
on strings; the compared texts here are ASCII, where byte order and
rune order agree). -/
def strLtF : List Char → List Char → Bool
  | [], [] => false
  | [], _ :: _ => true
  | _ :: _, [] => false
  | a :: as, b :: bs =>
    if a.toNat < b.toNat then true
    else if b.toNat < a.toNat then false
    else strLtF as bs

/-- String order as the character-list order on the data. -/
def strLt (s t : String) : Bool := strLtF s.data t.data

/-- Modelled from the spec: the strict `Less` comparison used to sort
map keys.  Floating-point payloads are decimal text in this embedding
and compare textually. -/
def ltValues : GoValue → GoValue → Bool
  | .vBool _ a, .vBool _ b => !a && b
  | .vInt _ a, .vInt _ b => decide (a < b)
  | .vUint _ a, .vUint _ b => decide (a < b)
  | .vUintptr _ a, .vUintptr _ b => decide (a < b)
  | .vFloat _ a, .vFloat _ b => strLt a b
  | .vString _ a, .vString _ b => strLt a b
  | a, b => strLt (valueSortString a) (valueSortString b)

/-- Non-strict key order derived from `ltValues`, used by the stable
insertion sort below on key/value pairs. -/
def pairLe (p q : GoValue × GoValue) : Bool := !(ltValues q.1 p.1)

/-- Ordered insertion for the stable sort of map pairs by key. -/
def orderedInsertP (p : GoValue × GoValue) :
    List (GoValue × GoValue) → List (GoValue × GoValue)
  | [] => [p]
  | q :: rest => if pairLe p q then p :: q :: rest else q :: orderedInsertP p rest

/-- Modelled from the spec: `sortValues` applied to the map's keys.  A
Go map holds exactly one value per key, so sorting the key/value pairs
by key and iterating them coincides with the source's sorted
`MapKeys()` loop fetching `MapIndex(key)` for each key. -/
def sortMapPairs : List (GoValue × GoValue) → List (GoValue × GoValue)
  | [] => []
  | p :: rest => orderedInsertP p (sortMapPairs rest)

/-! ### Hex renderer (spec-modelled)

`hexDump` lives in a repository file that is not under analysis.
Modelled from the spec (§4.4) and pinned by the repository's tests:
each row is the indent, the row's bytes as `0xNN` entries separated by
`, ` with a trailing comma, and — when byte comments are enabled — a
printable-character column aligned by padding short rows. -/

/-- Printable rendering of one byte for the comment column. -/
def asciiOf (b : Nat) : Char :=
  if 0x20 ≤ b ∧ b ≤ 0x7e then Char.ofNat b else '.'

/-- One row of the hex block. -/
def hexRow (ind : String) (width : Nat) (comment : Bool) (row : List Nat) : String :=
  let body := String.intercalate ", " (row.map (fun b => hexZeroBytes ++ hexByte b)) ++ ","
  let pad := repeatStr " " ((width - row.length) * 6)
  ind ++ body ++
    (if comment then pad ++ " // |" ++ String.mk (row.map asciiOf) ++ "|" else "") ++ "\n"

/-- Row splitting with the buffer's length as fuel. -/
def chunkFuel (w : Nat) : Nat → List Nat → List (List Nat)
  | _, [] => []
  | 0, l => [l]
  | Nat.succ f, x :: xs =>
    if w = 0 then [x :: xs]
    else (x :: xs).take w :: chunkFuel w f ((x :: xs).drop w)

/-- Split a byte buffer into rows of `w` bytes (one row when `w = 0`,
a degenerate width that the source never produces). -/
def chunkList (w : Nat) (l : List Nat) : List (List Nat) :=
  chunkFuel w l.length l

/-- The hex block: every `width`-byte row rendered by `hexRow`. -/
def hexDump (buf : List Nat) (ind : String) (width : Nat) (comment : Bool) : String :=
  String.join ((chunkList width buf).map (hexRow ind width comment))

/-- The cgo character-type regexes of dump.go (`^.*\._Ctype_char$` and
friends) reduce to suffix tests. -/
def isCgoByteName (s : String) : Bool :=
  "._Ctype_char".data.isSuffixOf s.data
    || "._Ctype_unsignedchar".data.isSuffixOf s.data
    || "._Ctype_uint8_t".data.isSuffixOf s.data

/-- Numeric coercion of one element to a byte for the hex block (the
`Convert(uint8Type)` fallback of `dumpSlice`). -/
def byteOf : GoValue → Nat
  | .vUint _ n => n % 256
  | .vInt _ n => (n % 256).toNat
  | _ => 0

/-- The byte-shape test of `dumpSlice` (dump.go lines 172–228): a
nonempty sequence whose element type is `uint8`-kinded or a recognized
cgo character type is hex dumped; the unsafe/`CanInterface` machinery
only changes how the bytes are obtained, not the bytes themselves, so
it collapses to mapping `byteOf` over the elements. -/
def dumpSliceBytes? (elems : List GoValue) : Option (List Nat) :=
  match elems with
  | [] => none
  | e0 :: _ =>
    let vt := typeOf e0
    if isCgoByteName vt.str || decide (vt.kind = .kUint8) then
      some (elems.map byteOf)
    else none

/-- The chain-walk loop of `dumpPtr` (dump.go lines 96–125): while the
current value is a pointer — stop flagging `nilFound` on a nil pointer;
count the indirection; append the address to the comment chain when
`CommentPointers` is set; stop flagging `cycleFound` (undoing the last
increment) when the address is recorded at a depth strictly below the
current one; otherwise record the address at the current depth,
dereference, and transparently unwrap one interface layer (stopping
with `nilFound` on a nil interface).  Returns
`(nilFound, cycleFound, indirects, ve, pointers, pointerChain)`;
`none` means the fuel ran out with the loop still running.  A dangling
address, which cannot arise in the source language, is treated as a
nil reference. -/
def chainWalk (cfg : ConfigState) (heap : HeapT) (depth : Nat) :
    Nat → GoValue → Nat → PtrMap → List Addr →
    Option (Bool × Bool × Nat × GoValue × PtrMap × List Addr)
  | 0, _, _, _, _ => none
  | Nat.succ n, ve, ind, p, chain =>
    match ve with
    | .vPtr ty none => some (true, false, ind, .vPtr ty none, p, chain)
    | .vPtr ty (some a) =>
      let ind' := ind + 1
      let chain' := if cfg.CommentPointers then chain ++ [a] else chain
      let hit := match lookupPtr p a with
        | some pd => decide (pd < depth)
        | none => false
      if hit then some (false, true, ind' - 1, .vPtr ty (some a), p, chain')
      else
        let p' := insertPtr p a depth
        match lookupHeap heap a with
        | none => some (true, false, ind', .vPtr ty (some a), p', chain')
        | some (.vIface ity none) => some (true, false, ind', .vIface ity none, p', chain')
        | some (.vIface _ (some w2)) => chainWalk cfg heap depth n w2 ind' p' chain'
        | some w => chainWalk cfg heap depth n w ind' p' chain'
    | v => some (false, false, ind, v, p, chain)

/-- The type of the recursive reference to `dump` that the loop
helpers receive: value, `wasPtr`, `static`, state. -/
abbrev DumpRec := GoValue → Bool → Bool → DState → Option DState

/-- The per-element loop of `dumpSlice`: unpack and dump each element,
each terminated by a comma and newline. -/
def dumpElemsGo (dmp : DumpRec) : List GoValue → DState → Option DState
  | [], st => some st
  | vi :: rest, st =>
    match unpackValue vi with
    | (v, wasPtr, static) =>
      match dmp v wasPtr static st with
      | none => none
      | some st2 => dumpElemsGo dmp rest (write commaNewlineBytes st2)

/-- After a map key: write the colon separator and set the one-shot
indent suppression for the value. -/
def afterColon (st : DState) : DState :=
  { (write colonSpaceBytes st) with ignoreNextIndent := true }

/-- Before a struct field's value: indent, write the field name and
the colon separator, and set the one-shot indent suppression. -/
def fieldPrefix (cfg : ConfigState) (fname : String) (st : DState) : DState :=
  { (write colonSpaceBytes (write fname (indentD cfg st))) with
    ignoreNextIndent := true }

/-- The per-pair loop of the map arm of `dump`: dump the key, a colon
separator, then the value with its leading indent suppressed, each
pair terminated by a comma and newline.  A Go map holds exactly one
value per key, so iterating the (possibly key-sorted) pairs coincides
with the source's loop over `MapKeys()` fetching `MapIndex(key)`. -/
def dumpPairsGo (dmp : DumpRec) : List (GoValue × GoValue) → DState → Option DState
  | [], st => some st
  | (k, val) :: rest, st =>
    match unpackValue k with
    | (kv, kp, ks) =>
      match dmp kv kp ks st with
      | none => none
      | some st2 =>
        match unpackValue val with
        | (vv, vp, vs) =>
          match dmp vv vp vs (afterColon st2) with
          | none => none
          | some st3 => dumpPairsGo dmp rest (write commaNewlineBytes st3)

/-- The per-field loop of the struct arm of `dump`: skip unexported
fields when configured, otherwise indent, write the field name and a
colon, then the field value with its leading indent suppressed, each
terminated by a comma and newline. -/
def dumpFieldsGo (cfg : ConfigState) (dmp : DumpRec) :
    List (String × String × GoValue) → DState → Option DState
  | [], st => some st
  | (fname, fpkg, fv) :: rest, st =>
    if cfg.IgnoreUnexported && fpkg != "" then dumpFieldsGo cfg dmp rest st
    else
      match unpackValue fv with
      | (v, wasPtr, static) =>
        match dmp v wasPtr static (fieldPrefix cfg fname st) with
        | none => none
        | some st2 => dumpFieldsGo cfg dmp rest (write commaNewlineBytes st2)

/-- `dumpSlice` (dump.go lines 168–243): hex dump byte-shaped
sequences, otherwise dump each element. -/
def dumpSliceGo (cfg : ConfigState) (dmp : DumpRec)
    (elems : List GoValue) (st : DState) : Option DState :=
  match dumpSliceBytes? elems with
  | some buf =>
    some (write (hexDump buf (repeatStr cfg.Indent st.depth)
      cfg.BytesWidth cfg.CommentBytes) st)
  | none => dumpElemsGo dmp elems st

/-- `dumpPtr` (dump.go lines 81–163): purge all tracker entries at a
depth ≥ the current depth, walk the reference chain, write one
ampersand per indirection, the final value's type name (parenthesized
when it begins with `*`), the optional address-chain comment, and then
either the nil marker, the circular marker, or the dereferenced value
with its type annotation suppressed (dumped through `dmp`, the
recursive reference to `dump`).

`ptrHeader` is the display portion (dump.go lines 127–148): one
ampersand per indirection, the final value's type name parenthesized
when it begins with `*`, and the optional address-chain comment. -/
def ptrHeader (indirects : Nat) (tb : String) (chain : List Addr)
    (st : DState) : DState :=
  let st1 := write (repeatStr ampersandBytes indirects) st
  let st1 := if startsStar tb then write openParenBytes st1 else st1
  let st1 := write (replaceIfaceType tb) st1
  let st1 := if startsStar tb then write closeParenBytes st1 else st1
  if chain.isEmpty then st1
  else
    write closeCommentBytes
      (write (String.intercalate pointerChainBytes
        (chain.map (fun a => printHexPtr a true)))
        (write openCommentBytes st1))

/-- Replace the pointer table (the chain walk's updates landing back
in the dump state). -/
def withPointers (p : PtrMap) (st : DState) : DState := { st with pointers := p }

/-- Set the one-shot type suppression before dumping a dereferenced
value (`d.ignoreNextType = true`). -/
def suppressType (st : DState) : DState := { st with ignoreNextType := true }

def dumpPtrGo (cfg : ConfigState) (heap : HeapT) (dmp : DumpRec)
    (chainFuel : Nat) (v : GoValue) (st : DState) : Option DState :=
  let p0 := purgePtr st.depth st.pointers
  match chainWalk cfg heap st.depth chainFuel v 0 p0 [] with
  | none => none
  | some (nilFound, cycleFound, indirects, ve, p1, chain) =>
    let st1 := ptrHeader indirects (typeOf ve).str chain (withPointers p1 st)
    if nilFound then
      some (write closeParenBytes (write nilBytes (write openParenBytes st1)))
    else if cycleFound then some (write circularBytes st1)
    else dmp ve true false (suppressType st1)

/-- The type-annotation preamble of `dump` (lines 271–287): unless the
one-shot suppression flag is set, indent and — when the type is wanted
— write the (interface-shortened) type name; clear the flag; open a
parenthesis for wanted non-compound types. -/
def typePreamble (cfg : ConfigState) (wantType : Bool) (v : GoValue)
    (st : DState) : DState :=
  let st1 :=
    if !st.ignoreNextType then
      let sti := indentD cfg st
      if wantType then write (replaceIfaceType (typeOf v).str) sti else sti
    else st
  let st1 := { st1 with ignoreNextType := false }
  if wantType && !(isCompoundV v) then write openParenBytes st1 else st1

/-- Opening a compound block: write `{\n` and increment the depth. -/
def braceOpen (st : DState) : DState :=
  { (write openBraceNewlineBytes st) with depth := st.depth + 1 }

/-- Closing a compound block: decrement the depth, indent, write `}`. -/
def braceClose (cfg : ConfigState) (st : DState) : DState :=
  write closeBraceBytes (indentD cfg { st with depth := st.depth - 1 })

/-- The non-pointer tail of `dump`: the type-annotation preamble, the
kind switch, and the closing parenthesis.  The `vInvalid` and `vPtr`
arms write nothing — as in the source switch, they are unreachable
because both were already handled before this point. -/
def dumpNonPtrGo (cfg : ConfigState) (dmp : DumpRec) (v : GoValue)
    (wasPtr static : Bool) (st : DState) : Option DState :=
  let wantType := wantTypeB cfg wasPtr static v
  let st1 := typePreamble cfg wantType v st
  let res : Option DState :=
    match v with
    | .vInvalid => some st1
    | .vPtr _ _ => some st1
    | .vBool _ b => some (write (printBool b) st1)
    | .vInt _ i => some (write (printInt i) st1)
    | .vUint _ u => some (write (printUint u) (write hexZeroBytes st1))
    | .vFloat _ s => some (write (printFloat s (!wantType)) st1)
    | .vComplex _ s => some (write s st1)
    | .vString _ s => some (write (goQuote s) st1)
    | .vIface _ none => some (write nilBytes st1)
    | .vIface _ (some _) => some st1
    | .vUintptr _ u => some (write (printHexPtr u false) st1)
    | .vChanFunc _ a => some (write (printHexPtr a true) st1)
    | .vOther _ text => some (write text st1)
    | .vSlice _ true _ =>
      some (write closeParenBytes (write nilBytes (write openParenBytes st1)))
    | .vSlice _ false elems =>
      match dumpSliceGo cfg dmp elems (braceOpen st1) with
      | none => none
      | some st2 => some (braceClose cfg st2)
    | .vArray _ elems =>
      match dumpSliceGo cfg dmp elems (braceOpen st1) with
      | none => none
      | some st2 => some (braceClose cfg st2)
    | .vMap _ true _ =>
      some (write closeParenBytes (write nilBytes (write openParenBytes st1)))
    | .vMap _ false pairs =>
      let ordered := if cfg.SortKeys then sortMapPairs pairs else pairs
      match dumpPairsGo dmp ordered (braceOpen st1) with
      | none => none
      | some st2 => some (braceClose cfg st2)
    | .vStruct _ fields =>
      match dumpFieldsGo cfg dmp fields (braceOpen st1) with
      | none => none
      | some st2 => some (braceClose cfg st2)
  res.map (fun stF =>
    if wantType && !(isCompoundV v) then write closeParenBytes stF else stF)

/-- `dump` (dump.go lines 249–416), fuel-indexed: invalid values write
the invalid marker; pointers indent and delegate to the `dumpPtr`
logic; every other kind goes through the non-pointer tail.  `none`
means the fuel ran out — never an error. -/
def dumpFuel (cfg : ConfigState) (heap : HeapT) : Nat → DumpRec
  | 0, _, _, _, _ => none
  | Nat.succ m, v, wasPtr, static, st =>
    match v with
    | .vInvalid => some (write invalidAngleBytes st)
    | .vPtr ty oa =>
      dumpPtrGo cfg heap (fun v' wp s st' => dumpFuel cfg heap m v' wp s st')
        (m + 1) (.vPtr ty oa) (indentD cfg st)
    | v =>
      dumpNonPtrGo cfg (fun v' wp s st' => dumpFuel cfg heap m v' wp s st')
        v wasPtr static st

/-- The fresh state `fdump` starts from: empty output, depth 0, empty
pointer table, both one-shot flags clear. -/
def initState : DState := ⟨"", 0, [], false, false⟩

/-- `fdump` (dump.go lines 434–449): a nil top-level interface writes
`interface{}(nil)` and a newline and returns without creating any
traversal state; otherwise a fresh state with an empty pointer table
is created, the value dumped, and a final newline written. -/
def fdump (cfg : ConfigState) (heap : HeapT) (n : Nat) (a : Option GoValue) :
    Option DState :=
  match a with
  | none =>
    some (write newlineBytes (write closeParenBytes (write nilBytes
      (write openParenBytes (write interfaceBytes initState)))))
  | some v =>
    match dumpFuel cfg heap n v false false initState with
    | none => none
    | some st => some (write newlineBytes st)

/-- The text a (sufficiently fueled) dump produces. -/
def fdumpOut (cfg : ConfigState) (heap : HeapT) (n : Nat) (a : Option GoValue) :
    Option String :=
  (fdump cfg heap n a).map DState.out

/-! ### Concrete fixtures used by the example-level theorems.
Type descriptors follow the `reflect` data of the corresponding Go
types (those of the repository's own tests where applicable). -/

def tInt : TypeInfo := ⟨"int", "int", "", .kInt⟩
def tInt8 : TypeInfo := ⟨"int8", "int8", "", .kInt8⟩
def tFloat32 : TypeInfo := ⟨"float32", "float32", "", .kFloat32⟩
def tFloat64 : TypeInfo := ⟨"float64", "float64", "", .kFloat64⟩
def tString : TypeInfo := ⟨"string", "string", "", .kString⟩
def tSliceF32 : TypeInfo := ⟨"[]float32", "", "", .kSlice⟩
def tPInt : TypeInfo := ⟨"*int", "", "", .kPtr⟩
def tCyc : TypeInfo := ⟨"utter_test.cyc", "cyc", "utter_test", .kStruct⟩
def tPCyc : TypeInfo := ⟨"*utter_test.cyc", "", "", .kPtr⟩
def tT : TypeInfo := ⟨"utter_test.T", "T", "utter_test", .kStruct⟩
def tMapII : TypeInfo := ⟨"map[interface {}]interface {}", "", "", .kMap⟩

/-- The default configuration (`NewDefaultConfig`). -/
def dcfg : ConfigState := {}

/-- The default configuration with type elision enabled. -/
def ecfg : ConfigState := { ElideType := true }

/-- The default configuration with key sorting enabled. -/
def scfg : ConfigState := { SortKeys := true }

/-! ### Pointer-table lemmas -/

/-- The pointer table holds at most one entry per address (a Go map
cannot hold duplicate keys); every reachable table satisfies this. -/
def NodupKeys (p : PtrMap) : Prop := (p.map Prod.fst).Nodup

theorem nodupKeys_nil : NodupKeys [] := List.nodup_nil

theorem nodupKeys_filter (p : PtrMap) (f : Addr × Nat → Bool) (h : NodupKeys p) :
    NodupKeys (p.filter f) :=
  List.Nodup.sublist (List.Sublist.map Prod.fst (List.filter_sublist p)) h

theorem nodupKeys_purge (d : Nat) (p : PtrMap) (h : NodupKeys p) :
    NodupKeys (purgePtr d p) := nodupKeys_filter p _ h

theorem nodupKeys_insert (p : PtrMap) (a : Addr) (d : Nat) (h : NodupKeys p) :
    NodupKeys (insertPtr p a d) := by
  unfold insertPtr NodupKeys
  refine List.nodup_cons.mpr ⟨?_, nodupKeys_filter p _ h⟩
  intro hmem
  rcases List.mem_map.mp hmem with ⟨e, he, hfst⟩
  have hne := List.of_mem_filter he
  simp only [Bool.not_eq_true', beq_eq_false_iff_ne] at hne
  exact hne hfst

theorem lookupPtr_mem {p : PtrMap} {a : Addr} {pd : Nat}
    (h : lookupPtr p a = some pd) : (a, pd) ∈ p := by
  unfold lookupPtr at h
  cases hf : p.find? (fun e => e.1 == a) with
  | none => rw [hf] at h; exact absurd h (by simp)
  | some e =>
    rw [hf] at h
    have hmem := List.mem_of_find?_eq_some hf
    have hpred := List.find?_some hf
    have : e.1 = a := by simpa using hpred
    cases h
    have : e = (a, e.2) := by cases e; simp_all
    rw [this] at hmem
    exact hmem

theorem lookupPtr_eq_none {p : PtrMap} {a : Addr}
    (h : lookupPtr p a = none) : ∀ e ∈ p, e.1 ≠ a := by
  unfold lookupPtr at h
  cases hf : p.find? (fun e => e.1 == a) with
  | none =>
    intro e he
    have := List.find?_eq_none.mp hf e he
    simpa using this
  | some e => rw [hf] at h; exact absurd h (by simp)

/-- With distinct keys, every entry for a looked-up address carries
the looked-up depth. -/
theorem lookupPtr_unique {p : PtrMap} (hnd : NodupKeys p) {a : Addr} {pd : Nat}
    (h : lookupPtr p a = some pd) : ∀ e ∈ p, e.1 = a → e.2 = pd := by
  intro e he hea
  have hmem := lookupPtr_mem h
  have hinj := List.inj_on_of_nodup_map hnd
  have : e = (a, pd) := hinj he hmem (by simpa using hea)
  rw [this]

theorem purgePtr_purgePtr {d d' : Nat} (hdd : d ≤ d') (p : PtrMap) :
    purgePtr d (purgePtr d' p) = purgePtr d p := by
  unfold purgePtr
  rw [List.filter_filter]
  refine List.filter_congr ?_
  intro e _
  by_cases h : e.2 < d
  · simp [h, Nat.lt_of_lt_of_le h hdd]
  · simp [h]

/-- Recording an address that the cycle check did not flag leaves the
strictly-shallower fragment of the table untouched. -/
theorem purgePtr_insertPtr {p : PtrMap} (hnd : NodupKeys p) {a : Addr} {d : Nat}
    (hsh : ∀ pd, lookupPtr p a = some pd → ¬ pd < d) :
    purgePtr d (insertPtr p a d) = purgePtr d p := by
  unfold purgePtr insertPtr
  rw [List.filter_cons]
  simp only [Nat.lt_irrefl, decide_False, if_false]
  rw [List.filter_filter]
  refine List.filter_congr ?_
  intro e he
  by_cases hlt : e.2 < d
  · simp only [hlt, decide_True, Bool.and_true]
    cases hl : lookupPtr p a with
    | none =>
      have := lookupPtr_eq_none hl e he
      simp [this]
    | some pd =>
      have hnd' := lookupPtr_unique hnd hl
      by_cases hea : e.1 = a
      · exact absurd (hnd' e he hea ▸ hlt) (hsh pd hl)
      · simp [hea]
  · simp [hlt]

/-! ### State-shape lemmas -/

theorem write_depth (s : String) (st : DState) : (write s st).depth = st.depth := rfl

theorem write_pointers (s : String) (st : DState) :
    (write s st).pointers = st.pointers := rfl

theorem indentD_depth (cfg : ConfigState) (st : DState) :
    (indentD cfg st).depth = st.depth := by
  unfold indentD; split <;> rfl

theorem indentD_pointers (cfg : ConfigState) (st : DState) :
    (indentD cfg st).pointers = st.pointers := by
  unfold indentD; split <;> rfl

/-- The chain walk exits immediately on a non-pointer value. -/
theorem chainWalk_nonPtr {cfg : ConfigState} {heap : HeapT} {δ : Nat} {v : GoValue}
    (hv : isPtrV v = false) (f ind : Nat) (p : PtrMap) (ch : List Addr) :
    chainWalk cfg heap δ (Nat.succ f) v ind p ch = some (false, false, ind, v, p, ch) := by
  cases v <;> simp_all [chainWalk, isPtrV]

/-- The chain walk of `dumpPtr` only adds entries at the current
depth, so the strictly-shallower fragment of the table — the recorded
ancestors — is untouched, and key distinctness is maintained. -/
theorem chainWalk_good (cfg : ConfigState) (heap : HeapT) (δ : Nat) :
    ∀ (f : Nat) (v : GoValue) (ind : Nat) (p : PtrMap) (ch : List Addr)
      {nf cf : Bool} {ind' : Nat} {ve : GoValue} {p1 : PtrMap} {ch1 : List Addr},
      chainWalk cfg heap δ f v ind p ch = some (nf, cf, ind', ve, p1, ch1) →
      NodupKeys p →
      NodupKeys p1 ∧ purgePtr δ p1 = purgePtr δ p := by
  intro f
  induction f with
  | zero => intro v ind p ch nf cf ind' ve p1 ch1 h; exact absurd h (by simp [chainWalk])
  | succ m ih =>
    intro v ind p ch nf cf ind' ve p1 ch1 h hnd
    by_cases hvp : ∃ ty oa, v = GoValue.vPtr ty oa
    · obtain ⟨ty, oa, rfl⟩ := hvp
      cases oa with
      | none =>
        simp only [chainWalk, Option.some.injEq, Prod.mk.injEq] at h
        obtain ⟨-, -, -, -, rfl, -⟩ := h
        exact ⟨hnd, rfl⟩
      | some a =>
        simp only [chainWalk] at h
        cases hl : lookupPtr p a with
        | some pd =>
          rw [hl] at h
          by_cases hlt : pd < δ
          · simp only [hlt, decide_True, if_true, Option.some.injEq, Prod.mk.injEq] at h
            obtain ⟨-, -, -, -, rfl, -⟩ := h
            exact ⟨hnd, rfl⟩
          · simp only [hlt, decide_False, if_false] at h
            have hnd' : NodupKeys (insertPtr p a δ) := nodupKeys_insert p a δ hnd
            have hpe : purgePtr δ (insertPtr p a δ) = purgePtr δ p :=
              purgePtr_insertPtr hnd (by intro pd' hl'; rw [hl] at hl'; cases hl'; exact hlt)
            cases hh : lookupHeap heap a with
            | none =>
              rw [hh] at h
              simp only [Option.some.injEq, Prod.mk.injEq] at h
              obtain ⟨-, -, -, -, rfl, -⟩ := h
              exact ⟨hnd', hpe⟩
            | some w =>
              rw [hh] at h
              by_cases hwi : ∃ ity oi, w = GoValue.vIface ity oi
              · obtain ⟨ity, oi, rfl⟩ := hwi
                cases oi with
                | none =>
                  simp only [Option.some.injEq, Prod.mk.injEq] at h
                  obtain ⟨-, -, -, -, rfl, -⟩ := h
                  exact ⟨hnd', hpe⟩
                | some w2 =>
                  obtain ⟨h1, h2⟩ := ih _ _ _ _ h hnd'
                  exact ⟨h1, h2.trans hpe⟩
              · have hred : chainWalk cfg heap δ m w (ind + 1) (insertPtr p a δ)
                    (if cfg.CommentPointers then ch ++ [a] else ch) =
                    some (nf, cf, ind', ve, p1, ch1) := by
                  cases w <;> first
                    | exact h
                    | exact absurd ⟨_, _, rfl⟩ hwi
                obtain ⟨h1, h2⟩ := ih _ _ _ _ hred hnd'
                exact ⟨h1, h2.trans hpe⟩
        | none =>
          rw [hl] at h
          simp only [decide_False, if_false] at h
          have hnd' : NodupKeys (insertPtr p a δ) := nodupKeys_insert p a δ hnd
          have hpe : purgePtr δ (insertPtr p a δ) = purgePtr δ p :=
            purgePtr_insertPtr hnd (by intro pd' hl'; rw [hl] at hl'; cases hl')
          cases hh : lookupHeap heap a with
          | none =>
            rw [hh] at h
            simp only [Option.some.injEq, Prod.mk.injEq] at h
            obtain ⟨-, -, -, -, rfl, -⟩ := h
            exact ⟨hnd', hpe⟩
          | some w =>
            rw [hh] at h
            by_cases hwi : ∃ ity oi, w = GoValue.vIface ity oi
            · obtain ⟨ity, oi, rfl⟩ := hwi
              cases oi with
              | none =>
                simp only [Option.some.injEq, Prod.mk.injEq] at h
                obtain ⟨-, -, -, -, rfl, -⟩ := h
                exact ⟨hnd', hpe⟩
              | some w2 =>
                obtain ⟨h1, h2⟩ := ih _ _ _ _ h hnd'
                exact ⟨h1, h2.trans hpe⟩
            · have hred : chainWalk cfg heap δ m w (ind + 1) (insertPtr p a δ)
                  (if cfg.CommentPointers then ch ++ [a] else ch) =
                  some (nf, cf, ind', ve, p1, ch1) := by
                cases w <;> first
                  | exact h
                  | exact absurd ⟨_, _, rfl⟩ hwi
              obtain ⟨h1, h2⟩ := ih _ _ _ _ hred hnd'
              exact ⟨h1, h2.trans hpe⟩
    · have hnp : isPtrV v = false := by
        cases v <;> first
          | rfl
          | exact absurd ⟨_, _, rfl⟩ hvp
      rw [chainWalk_nonPtr hnp] at h
      simp only [Option.some.injEq, Prod.mk.injEq] at h
      obtain ⟨-, -, -, -, rfl, -⟩ := h
      exact ⟨hnd, rfl⟩

/-! ### Depth and ancestor-table preservation -/

/-- A dump step is *good* when, on success from a table with distinct
keys, it restores the depth, keeps the keys distinct, and leaves the
strictly-shallower fragment of the table — the entries recorded by
still-active ancestors — exactly as it found it. -/
def GoodStep (f : DumpRec) : Prop :=
  ∀ v wp s st st', f v wp s st = some st' → NodupKeys st.pointers →
    st'.depth = st.depth ∧ NodupKeys st'.pointers ∧
    purgePtr st.depth st'.pointers = purgePtr st.depth st.pointers

theorem typePreamble_depth (cfg : ConfigState) (w : Bool) (v : GoValue) (st : DState) :
    (typePreamble cfg w v st).depth = st.depth := by
  unfold typePreamble write indentD
  repeat' split
  all_goals rfl

theorem typePreamble_pointers (cfg : ConfigState) (w : Bool) (v : GoValue) (st : DState) :
    (typePreamble cfg w v st).pointers = st.pointers := by
  unfold typePreamble write indentD
  repeat' split
  all_goals rfl

theorem braceOpen_depth (st : DState) : (braceOpen st).depth = st.depth + 1 := rfl

theorem braceOpen_pointers (st : DState) : (braceOpen st).pointers = st.pointers := rfl

theorem braceClose_depth (cfg : ConfigState) (st : DState) :
    (braceClose cfg st).depth = st.depth - 1 := by
  unfold braceClose
  rw [write_depth, indentD_depth]

theorem braceClose_pointers (cfg : ConfigState) (st : DState) :
    (braceClose cfg st).pointers = st.pointers := by
  unfold braceClose
  rw [write_pointers, indentD_pointers]

theorem afterColon_depth (st : DState) : (afterColon st).depth = st.depth := rfl

theorem afterColon_pointers (st : DState) :
    (afterColon st).pointers = st.pointers := rfl

theorem fieldPrefix_depth (cfg : ConfigState) (s : String) (st : DState) :
    (fieldPrefix cfg s st).depth = st.depth := by
  unfold fieldPrefix write indentD
  repeat' split
  all_goals rfl

theorem fieldPrefix_pointers (cfg : ConfigState) (s : String) (st : DState) :
    (fieldPrefix cfg s st).pointers = st.pointers := by
  unfold fieldPrefix write indentD
  repeat' split
  all_goals rfl

theorem dumpElemsGo_good {dmp : DumpRec} (hdmp : GoodStep dmp) :
    ∀ (l : List GoValue) (st st' : DState),
      dumpElemsGo dmp l st = some st' → NodupKeys st.pointers →
      st'.depth = st.depth ∧ NodupKeys st'.pointers ∧
      purgePtr st.depth st'.pointers = purgePtr st.depth st.pointers := by
  intro l
  induction l with
  | nil =>
    intro st st' h hnd
    simp only [dumpElemsGo, Option.some.injEq] at h
    exact ⟨h ▸ rfl, h ▸ hnd, h ▸ rfl⟩
  | cons vi rest ih =>
    intro st st' h hnd
    rcases hu : unpackValue vi with ⟨v, wp, s⟩
    simp only [dumpElemsGo, hu] at h
    cases hd : dmp v wp s st with
    | none => simp only [hd] at h; exact absurd h (by simp)
    | some st2 =>
      simp only [hd] at h
      obtain ⟨hde, hnd2, hpe⟩ := hdmp _ _ _ _ _ hd hnd
      obtain ⟨hde', hnd', hpe'⟩ := ih _ _ h hnd2
      rw [write_depth, hde] at hde' hpe'
      rw [write_pointers] at hpe'
      exact ⟨hde', hnd', hpe'.trans hpe⟩

theorem dumpPairsGo_good {dmp : DumpRec} (hdmp : GoodStep dmp) :
    ∀ (l : List (GoValue × GoValue)) (st st' : DState),
      dumpPairsGo dmp l st = some st' → NodupKeys st.pointers →
      st'.depth = st.depth ∧ NodupKeys st'.pointers ∧
      purgePtr st.depth st'.pointers = purgePtr st.depth st.pointers := by
  intro l
  induction l with
  | nil =>
    intro st st' h hnd
    simp only [dumpPairsGo, Option.some.injEq] at h
    exact ⟨h ▸ rfl, h ▸ hnd, h ▸ rfl⟩
  | cons kv rest ih =>
    intro st st' h hnd
    obtain ⟨k, val⟩ := kv
    rcases hu : unpackValue k with ⟨kv', kp, ks⟩
    rcases hu2 : unpackValue val with ⟨vv, vp, vs⟩
    simp only [dumpPairsGo, hu, hu2] at h
    cases hd : dmp kv' kp ks st with
    | none => simp only [hd] at h; exact absurd h (by simp)
    | some st2 =>
      simp only [hd] at h
      obtain ⟨hde2, hnd2, hpe2⟩ := hdmp _ _ _ _ _ hd hnd
      cases hv : dmp vv vp vs (afterColon st2) with
      | none => simp only [hv] at h; exact absurd h (by simp)
      | some st3 =>
        simp only [hv] at h
        obtain ⟨hde3, hnd3, hpe3⟩ :=
          hdmp _ _ _ _ _ hv (by rw [afterColon_pointers]; exact hnd2)
        rw [afterColon_depth, hde2] at hde3
        rw [afterColon_depth, afterColon_pointers, hde2] at hpe3
        obtain ⟨hde', hnd', hpe'⟩ := ih _ _ h hnd3
        rw [write_depth, hde3] at hde' hpe'
        rw [write_pointers] at hpe'
        exact ⟨hde', hnd', (hpe'.trans hpe3).trans hpe2⟩

theorem dumpFieldsGo_good {cfg : ConfigState} {dmp : DumpRec} (hdmp : GoodStep dmp) :
    ∀ (l : List (String × String × GoValue)) (st st' : DState),
      dumpFieldsGo cfg dmp l st = some st' → NodupKeys st.pointers →
      st'.depth = st.depth ∧ NodupKeys st'.pointers ∧
      purgePtr st.depth st'.pointers = purgePtr st.depth st.pointers := by
  intro l
  induction l with
  | nil =>
    intro st st' h hnd
    simp only [dumpFieldsGo, Option.some.injEq] at h
    exact ⟨h ▸ rfl, h ▸ hnd, h ▸ rfl⟩
  | cons fld rest ih =>
    intro st st' h hnd
    obtain ⟨fname, fpkg, fv⟩ := fld
    rcases hu : unpackValue fv with ⟨v, wp, s⟩
    simp only [dumpFieldsGo, hu] at h
    by_cases hskip : (cfg.IgnoreUnexported && fpkg != "") = true
    · rw [if_pos hskip] at h
      exact ih _ _ h hnd
    · rw [if_neg hskip] at h
      cases hd : dmp v wp s (fieldPrefix cfg fname st) with
      | none => simp only [hd] at h; exact absurd h (by simp)
      | some st2 =>
        simp only [hd] at h
        obtain ⟨hde2, hnd2, hpe2⟩ :=
          hdmp _ _ _ _ _ hd (by rw [fieldPrefix_pointers]; exact hnd)
        rw [fieldPrefix_depth] at hde2
        rw [fieldPrefix_depth, fieldPrefix_pointers] at hpe2
        obtain ⟨hde', hnd', hpe'⟩ := ih _ _ h hnd2
        rw [write_depth, hde2] at hde' hpe'
        rw [write_pointers] at hpe'
        exact ⟨hde', hnd', hpe'.trans hpe2⟩

theorem goodTriple_of_shape {st st' : DState} (hd : st'.depth = st.depth)
    (hp : st'.pointers = st.pointers) (hnd : NodupKeys st.pointers) :
    st'.depth = st.depth ∧ NodupKeys st'.pointers ∧
    purgePtr st.depth st'.pointers = purgePtr st.depth st.pointers :=
  ⟨hd, hp ▸ hnd, hp ▸ rfl⟩

theorem ite_write_depth (c : Prop) [Decidable c] (s : String) (st : DState) :
    (if c then write s st else st).depth = st.depth := by split <;> rfl

theorem ite_write_pointers (c : Prop) [Decidable c] (s : String) (st : DState) :
    (if c then write s st else st).pointers = st.pointers := by split <;> rfl

theorem dumpSliceGo_good {cfg : ConfigState} {dmp : DumpRec} (hdmp : GoodStep dmp) :
    ∀ (l : List GoValue) (st st' : DState),
      dumpSliceGo cfg dmp l st = some st' → NodupKeys st.pointers →
      st'.depth = st.depth ∧ NodupKeys st'.pointers ∧
      purgePtr st.depth st'.pointers = purgePtr st.depth st.pointers := by
  intro l st st' h hnd
  unfold dumpSliceGo at h
  cases hb : dumpSliceBytes? l with
  | some buf =>
    rw [hb] at h
    simp only [Option.some.injEq] at h
    exact ⟨h ▸ rfl, h ▸ hnd, h ▸ rfl⟩
  | none =>
    rw [hb] at h
    exact dumpElemsGo_good hdmp l st st' h hnd

theorem ptrHeader_depth (ind : Nat) (tb : String) (ch : List Addr) (st : DState) :
    (ptrHeader ind tb ch st).depth = st.depth := by
  unfold ptrHeader write
  repeat' split
  all_goals rfl

theorem ptrHeader_pointers (ind : Nat) (tb : String) (ch : List Addr) (st : DState) :
    (ptrHeader ind tb ch st).pointers = st.pointers := by
  unfold ptrHeader write
  repeat' split
  all_goals rfl

theorem withPointers_depth (p : PtrMap) (st : DState) :
    (withPointers p st).depth = st.depth := rfl

theorem withPointers_pointers (p : PtrMap) (st : DState) :
    (withPointers p st).pointers = p := rfl

theorem suppressType_depth (st : DState) : (suppressType st).depth = st.depth := rfl

theorem suppressType_pointers (st : DState) :
    (suppressType st).pointers = st.pointers := rfl

/-- Destructor for the compound arms of the kind switch. -/
theorem match_braceClose_eq_some {cfg : ConfigState} {S : Option DState} {x : DState}
    (h : (match S with
          | none => none
          | some st2 => some (braceClose cfg st2)) = some x) :
    ∃ st2, S = some st2 ∧ x = braceClose cfg st2 := by
  cases S with
  | none => exact absurd h (by simp)
  | some st2 => exact ⟨st2, rfl, by simpa using h.symm⟩

/-- Reassembling the compound arm: opening a brace, running a good
loop, and closing the brace restores the depth and the strictly
shallower table fragment. -/
theorem braces_good (cfg : ConfigState) {st1 st2 st : DState}
    (h1d : st1.depth = st.depth) (h1p : st1.pointers = st.pointers)
    (h2d : st2.depth = (braceOpen st1).depth) (h2nd : NodupKeys st2.pointers)
    (h2p : purgePtr (braceOpen st1).depth st2.pointers =
      purgePtr (braceOpen st1).depth (braceOpen st1).pointers) :
    (braceClose cfg st2).depth = st.depth ∧ NodupKeys (braceClose cfg st2).pointers ∧
    purgePtr st.depth (braceClose cfg st2).pointers = purgePtr st.depth st.pointers := by
  rw [braceOpen_depth, h1d] at h2d h2p
  rw [braceOpen_pointers, h1p] at h2p
  refine ⟨by rw [braceClose_depth, h2d]; omega,
    by rw [braceClose_pointers]; exact h2nd, ?_⟩
  rw [braceClose_pointers]
  calc purgePtr st.depth st2.pointers
      = purgePtr st.depth (purgePtr (st.depth + 1) st2.pointers) :=
        (purgePtr_purgePtr (Nat.le_succ _) _).symm
    _ = purgePtr st.depth (purgePtr (st.depth + 1) st.pointers) := by rw [h2p]
    _ = purgePtr st.depth st.pointers := purgePtr_purgePtr (Nat.le_succ _) _

theorem dumpNonPtrGo_good {cfg : ConfigState} {dmp : DumpRec} (hdmp : GoodStep dmp) :
    GoodStep (dumpNonPtrGo cfg dmp) := by
  intro v wp s st st' h hnd
  cases v with
  | vBool ty b =>
    simp only [dumpNonPtrGo, Option.map_some', Option.some.injEq] at h
    subst h
    exact goodTriple_of_shape
      (by rw [ite_write_depth, write_depth, typePreamble_depth])
      (by rw [ite_write_pointers, write_pointers, typePreamble_pointers]) hnd
  | vInt ty i =>
    simp only [dumpNonPtrGo, Option.map_some', Option.some.injEq] at h
    subst h
    exact goodTriple_of_shape
      (by rw [ite_write_depth, write_depth, typePreamble_depth])
      (by rw [ite_write_pointers, write_pointers, typePreamble_pointers]) hnd
  | vUint ty u =>
    simp only [dumpNonPtrGo, Option.map_some', Option.some.injEq] at h
    subst h
    exact goodTriple_of_shape
      (by rw [ite_write_depth, write_depth, write_depth, typePreamble_depth])
      (by rw [ite_write_pointers, write_pointers, write_pointers,
        typePreamble_pointers]) hnd
  | vFloat ty x =>
    simp only [dumpNonPtrGo, Option.map_some', Option.some.injEq] at h
    subst h
    exact goodTriple_of_shape
      (by rw [ite_write_depth, write_depth, typePreamble_depth])
      (by rw [ite_write_pointers, write_pointers, typePreamble_pointers]) hnd
  | vComplex ty x =>
    simp only [dumpNonPtrGo, Option.map_some', Option.some.injEq] at h
    subst h
    exact goodTriple_of_shape
      (by rw [ite_write_depth, write_depth, typePreamble_depth])
      (by rw [ite_write_pointers, write_pointers, typePreamble_pointers]) hnd
  | vString ty x =>
    simp only [dumpNonPtrGo, Option.map_some', Option.some.injEq] at h
    subst h
    exact goodTriple_of_shape
      (by rw [ite_write_depth, write_depth, typePreamble_depth])
      (by rw [ite_write_pointers, write_pointers, typePreamble_pointers]) hnd
  | vUintptr ty u =>
    simp only [dumpNonPtrGo, Option.map_some', Option.some.injEq] at h
    subst h
    exact goodTriple_of_shape
      (by rw [ite_write_depth, write_depth, typePreamble_depth])
      (by rw [ite_write_pointers, write_pointers, typePreamble_pointers]) hnd
  | vChanFunc ty a =>
    simp only [dumpNonPtrGo, Option.map_some', Option.some.injEq] at h
    subst h
    exact goodTriple_of_shape
      (by rw [ite_write_depth, write_depth, typePreamble_depth])
      (by rw [ite_write_pointers, write_pointers, typePreamble_pointers]) hnd
  | vOther ty text =>
    simp only [dumpNonPtrGo, Option.map_some', Option.some.injEq] at h
    subst h
    exact goodTriple_of_shape
      (by rw [ite_write_depth, write_depth, typePreamble_depth])
      (by rw [ite_write_pointers, write_pointers, typePreamble_pointers]) hnd
  | vInvalid =>
    simp only [dumpNonPtrGo, Option.map_some', Option.some.injEq] at h
    subst h
    exact goodTriple_of_shape
      (by rw [ite_write_depth, typePreamble_depth])
      (by rw [ite_write_pointers, typePreamble_pointers]) hnd
  | vPtr ty oa =>
    simp only [dumpNonPtrGo, Option.map_some', Option.some.injEq] at h
    subst h
    exact goodTriple_of_shape
      (by rw [ite_write_depth, typePreamble_depth])
      (by rw [ite_write_pointers, typePreamble_pointers]) hnd
  | vIface ty oi =>
    cases oi with
    | none =>
      simp only [dumpNonPtrGo, Option.map_some', Option.some.injEq] at h
      subst h
      exact goodTriple_of_shape
        (by rw [ite_write_depth, write_depth, typePreamble_depth])
        (by rw [ite_write_pointers, write_pointers, typePreamble_pointers]) hnd
    | some w =>
      simp only [dumpNonPtrGo, Option.map_some', Option.some.injEq] at h
      subst h
      exact goodTriple_of_shape
        (by rw [ite_write_depth, typePreamble_depth])
        (by rw [ite_write_pointers, typePreamble_pointers]) hnd
  | vSlice ty ns elems =>
    cases ns with
    | true =>
      simp only [dumpNonPtrGo, Option.map_some', Option.some.injEq] at h
      subst h
      exact goodTriple_of_shape
        (by rw [ite_write_depth, write_depth, write_depth, write_depth,
          typePreamble_depth])
        (by rw [ite_write_pointers, write_pointers, write_pointers, write_pointers,
          typePreamble_pointers]) hnd
    | false =>
      simp only [dumpNonPtrGo] at h
      rcases Option.map_eq_some'.mp h with ⟨x, hx, hwrap⟩
      rcases match_braceClose_eq_some hx with ⟨st2, hs, rfl⟩
      subst hwrap
      obtain ⟨h2d, h2nd, h2p⟩ := dumpSliceGo_good hdmp _ _ _ hs
        (by rw [braceOpen_pointers, typePreamble_pointers]; exact hnd)
      obtain ⟨hd, hn, hp⟩ := braces_good cfg
        (typePreamble_depth _ _ _ _) (typePreamble_pointers _ _ _ _) h2d h2nd h2p
      refine ⟨by rw [ite_write_depth, hd], by rw [ite_write_pointers]; exact hn, ?_⟩
      rw [ite_write_pointers]
      exact hp
  | vArray ty elems =>
    simp only [dumpNonPtrGo] at h
    rcases Option.map_eq_some'.mp h with ⟨x, hx, hwrap⟩
    rcases match_braceClose_eq_some hx with ⟨st2, hs, rfl⟩
    subst hwrap
    obtain ⟨h2d, h2nd, h2p⟩ := dumpSliceGo_good hdmp _ _ _ hs
      (by rw [braceOpen_pointers, typePreamble_pointers]; exact hnd)
    obtain ⟨hd, hn, hp⟩ := braces_good cfg
      (typePreamble_depth _ _ _ _) (typePreamble_pointers _ _ _ _) h2d h2nd h2p
    refine ⟨by rw [ite_write_depth, hd], by rw [ite_write_pointers]; exact hn, ?_⟩
    rw [ite_write_pointers]
    exact hp
  | vMap ty nm pairs =>
    cases nm with
    | true =>
      simp only [dumpNonPtrGo, Option.map_some', Option.some.injEq] at h
      subst h
      exact goodTriple_of_shape
        (by rw [ite_write_depth, write_depth, write_depth, write_depth,
          typePreamble_depth])
        (by rw [ite_write_pointers, write_pointers, write_pointers, write_pointers,
          typePreamble_pointers]) hnd
    | false =>
      simp only [dumpNonPtrGo] at h
      rcases Option.map_eq_some'.mp h with ⟨x, hx, hwrap⟩
      rcases match_braceClose_eq_some hx with ⟨st2, hs, rfl⟩
      subst hwrap
      obtain ⟨h2d, h2nd, h2p⟩ := dumpPairsGo_good hdmp _ _ _ hs
        (by rw [braceOpen_pointers, typePreamble_pointers]; exact hnd)
      obtain ⟨hd, hn, hp⟩ := braces_good cfg
        (typePreamble_depth _ _ _ _) (typePreamble_pointers _ _ _ _) h2d h2nd h2p
      refine ⟨by rw [ite_write_depth, hd], by rw [ite_write_pointers]; exact hn, ?_⟩
      rw [ite_write_pointers]
      exact hp
  | vStruct ty fields =>
    simp only [dumpNonPtrGo] at h
    rcases Option.map_eq_some'.mp h with ⟨x, hx, hwrap⟩
    rcases match_braceClose_eq_some hx with ⟨st2, hs, rfl⟩
    subst hwrap
    obtain ⟨h2d, h2nd, h2p⟩ := dumpFieldsGo_good hdmp _ _ _ hs
      (by rw [braceOpen_pointers, typePreamble_pointers]; exact hnd)
    obtain ⟨hd, hn, hp⟩ := braces_good cfg
      (typePreamble_depth _ _ _ _) (typePreamble_pointers _ _ _ _) h2d h2nd h2p
    refine ⟨by rw [ite_write_depth, hd], by rw [ite_write_pointers]; exact hn, ?_⟩
    rw [ite_write_pointers]
    exact hp

theorem dumpPtrGo_good {cfg : ConfigState} {heap : HeapT} {dmp : DumpRec}
    (hdmp : GoodStep dmp) (cn : Nat) :
    ∀ v st st', dumpPtrGo cfg heap dmp cn v st = some st' → NodupKeys st.pointers →
      st'.depth = st.depth ∧ NodupKeys st'.pointers ∧
      purgePtr st.depth st'.pointers = purgePtr st.depth st.pointers := by
  intro v st st' h hnd
  simp only [dumpPtrGo] at h
  cases hcw : chainWalk cfg heap st.depth cn v 0 (purgePtr st.depth st.pointers) [] with
  | none => simp only [hcw] at h; exact absurd h (by simp)
  | some r =>
    obtain ⟨nf, cf, ind, ve, p1, ch⟩ := r
    simp only [hcw] at h
    obtain ⟨hnd1, hp1⟩ := chainWalk_good cfg heap st.depth cn v 0 _ [] hcw
      (nodupKeys_purge _ _ hnd)
    rw [purgePtr_purgePtr (Nat.le_refl _)] at hp1
    have hbd : (ptrHeader ind (typeOf ve).str ch (withPointers p1 st)).depth
        = st.depth := by rw [ptrHeader_depth, withPointers_depth]
    have hbp : (ptrHeader ind (typeOf ve).str ch (withPointers p1 st)).pointers
        = p1 := by rw [ptrHeader_pointers, withPointers_pointers]
    cases nf with
    | true =>
      rw [if_pos rfl] at h
      obtain rfl : _ = st' := Option.some.inj h
      refine ⟨by rw [write_depth, write_depth, write_depth, hbd], ?_, ?_⟩
      · rw [write_pointers, write_pointers, write_pointers, hbp]; exact hnd1
      · rw [write_pointers, write_pointers, write_pointers, hbp]; exact hp1
    | false =>
      rw [if_neg (by simp)] at h
      cases cf with
      | true =>
        rw [if_pos rfl] at h
        obtain rfl : _ = st' := Option.some.inj h
        refine ⟨by rw [write_depth, hbd], ?_, ?_⟩
        · rw [write_pointers, hbp]; exact hnd1
        · rw [write_pointers, hbp]; exact hp1
      | false =>
        rw [if_neg (by simp)] at h
        obtain ⟨hde, hnd', hpe⟩ := hdmp _ _ _ _ _ h (by
          rw [suppressType_pointers, hbp]; exact hnd1)
        rw [suppressType_depth, hbd] at hde hpe
        rw [suppressType_pointers, hbp] at hpe
        exact ⟨hde, hnd', hpe.trans hp1⟩

/-- The main preservation result for `dump`: every successful call
restores the depth and leaves the strictly shallower fragment of the
pointer table unchanged. -/
theorem dump_good (cfg : ConfigState) (heap : HeapT) :
    ∀ n, GoodStep (dumpFuel cfg heap n) := by
  intro n
  induction n with
  | zero =>
    intro v wp s st st' h
    exact absurd h (by simp [dumpFuel])
  | succ m ih =>
    intro v wp s st st' h hnd
    cases v with
    | vInvalid =>
      simp only [dumpFuel, Option.some.injEq] at h
      subst h
      exact goodTriple_of_shape (write_depth _ _) (write_pointers _ _) hnd
    | vPtr ty oa =>
      simp only [dumpFuel] at h
      obtain ⟨hde, hnd', hpe⟩ := dumpPtrGo_good ih (m + 1) _ _ _ h
        (by rw [indentD_pointers]; exact hnd)
      rw [indentD_depth] at hde hpe
      rw [indentD_pointers] at hpe
      exact ⟨hde, hnd', hpe⟩
    | vBool ty b => exact dumpNonPtrGo_good ih _ _ _ _ _ (by simpa [dumpFuel] using h) hnd
    | vInt ty i => exact dumpNonPtrGo_good ih _ _ _ _ _ (by simpa [dumpFuel] using h) hnd
    | vUint ty u => exact dumpNonPtrGo_good ih _ _ _ _ _ (by simpa [dumpFuel] using h) hnd
    | vFloat ty x => exact dumpNonPtrGo_good ih _ _ _ _ _ (by simpa [dumpFuel] using h) hnd
    | vComplex ty x => exact dumpNonPtrGo_good ih _ _ _ _ _ (by simpa [dumpFuel] using h) hnd
    | vString ty x => exact dumpNonPtrGo_good ih _ _ _ _ _ (by simpa [dumpFuel] using h) hnd
    | vUintptr ty u => exact dumpNonPtrGo_good ih _ _ _ _ _ (by simpa [dumpFuel] using h) hnd
    | vChanFunc ty a => exact dumpNonPtrGo_good ih _ _ _ _ _ (by simpa [dumpFuel] using h) hnd
    | vSlice ty ns elems => exact dumpNonPtrGo_good ih _ _ _ _ _ (by simpa [dumpFuel] using h) hnd
    | vArray ty elems => exact dumpNonPtrGo_good ih _ _ _ _ _ (by simpa [dumpFuel] using h) hnd
    | vMap ty nm pairs => exact dumpNonPtrGo_good ih _ _ _ _ _ (by simpa [dumpFuel] using h) hnd
    | vStruct ty fields => exact dumpNonPtrGo_good ih _ _ _ _ _ (by simpa [dumpFuel] using h) hnd
    | vIface ty oi => exact dumpNonPtrGo_good ih _ _ _ _ _ (by simpa [dumpFuel] using h) hnd
    | vOther ty text => exact dumpNonPtrGo_good ih _ _ _ _ _ (by simpa [dumpFuel] using h) hnd

/-- With distinct keys, a member of the table is what lookup finds. -/
theorem lookupPtr_of_mem {p : PtrMap} (hnd : NodupKeys p) {a : Addr} {pd : Nat}
    (hmem : (a, pd) ∈ p) : lookupPtr p a = some pd := by
  unfold lookupPtr
  cases hf : p.find? (fun e => e.1 == a) with
  | none =>
    have := List.find?_eq_none.mp hf (a, pd) hmem
    simp at this
  | some e =>
    have he := List.mem_of_find?_eq_some hf
    have hea : e.1 = a := by simpa using List.find?_some hf
    have hinj := List.inj_on_of_nodup_map hnd
    have : e = (a, pd) := hinj he hmem (by simpa using hea)
    rw [this]

/-- Characterization of the purge: an address survives with its depth
exactly when it was recorded strictly below the purge depth. -/
theorem lookupPtr_purgePtr {p : PtrMap} (hnd : NodupKeys p) (d : Nat) (a : Addr)
    (pd : Nat) :
    lookupPtr (purgePtr d p) a = some pd ↔ lookupPtr p a = some pd ∧ pd < d := by
  constructor
  · intro h
    have hmem := lookupPtr_mem h
    have hmem' := List.mem_of_mem_filter hmem
    have hlt : pd < d := by simpa using List.of_mem_filter hmem
    exact ⟨lookupPtr_of_mem hnd hmem', hlt⟩
  · rintro ⟨h, hlt⟩
    have hmem := lookupPtr_mem h
    have hmem' : (a, pd) ∈ purgePtr d p :=
      List.mem_filter.mpr ⟨hmem, by simpa using hlt⟩
    exact lookupPtr_of_mem (nodupKeys_purge d p hnd) hmem'

/-! ### Claim theorems: depth discipline and the tracker -/

/-- **C10**: every successful `dump` call leaves `dumpState.depth`
exactly as it found it — each compound arm increments the depth once
after writing its opening brace and decrements it once before its
closing brace — and consequently the state after a successful
top-level dump has depth 0. -/
theorem dump_depth_restored (cfg : ConfigState) (heap : HeapT) :
    (∀ n v wasPtr static st st',
      dumpFuel cfg heap n v wasPtr static st = some st' →
      NodupKeys st.pointers → st'.depth = st.depth) ∧
    (∀ n a st', fdump cfg heap n a = some st' → st'.depth = 0) := by
  constructor
  · intro n v wp s st st' h hnd
    exact (dump_good cfg heap n v wp s st st' h hnd).1
  · intro n a st' h
    cases a with
    | none =>
      simp only [fdump, Option.some.injEq] at h
      rw [← h]
      rfl
    | some v =>
      simp only [fdump] at h
      cases hd : dumpFuel cfg heap n v false false initState with
      | none => simp only [hd] at h; exact absurd h (by simp)
      | some st2 =>
        simp only [hd, Option.some.injEq] at h
        rw [← h, write_depth]
        exact (dump_good cfg heap n v false false initState st2 hd nodupKeys_nil).1

theorem dump_depth_restored_witness :
    dumpFuel dcfg [] 3 (.vInt tInt 5) false false initState =
      some ⟨"int(5)", 0, [], false, false⟩ ∧
    (⟨"int(5)", 0, [], false, false⟩ : DState).depth = initState.depth :=
  ⟨by decide, (dump_depth_restored dcfg []).1 3 (.vInt tInt 5) false false
    initState ⟨"int(5)", 0, [], false, false⟩ (by decide) nodupKeys_nil⟩

/-- **C9**: `fdump` on a nil top-level interface writes exactly
`interface{}(nil)` followed by one newline.  The result is the same
for every configuration, heap, and fuel — no traversal happens — and
its pointer table is the empty table that was never consulted or
populated. -/
theorem fdump_nil_interface (cfg : ConfigState) (heap : HeapT) (n : Nat) :
    fdump cfg heap n none = some ⟨"interface{}(nil)\n", 0, [], false, false⟩ := rfl

/-- **C4 counterexample**: dump `utter_test.T{A: &int(9), B: int(7)}`
with field `A` pointing at address 4.  The traversal records address 4
at depth 1, finishes the subtree, backtracks to depth 0 and completes —
yet the final tracker still contains the entry (4, 1).  An address is
therefore *not* removed the moment the traversal backtracks to or
above its recorded depth, and while field `B` was being processed the
table contained an address that is not an ancestor of `B`. -/
theorem tracker_entry_survives_backtrack :
    (fdump dcfg [(4, .vInt tInt 9)] 10 (some (.vStruct tT
      [("A", "", .vPtr tPInt (some 4)), ("B", "", .vInt tInt 7)]))).map
        DState.pointers = some [(4, 1)] ∧ ([(4, 1)] : PtrMap) ≠ [] :=
  ⟨by decide, by decide⟩

/-- **C4 (amended)**: stale tracker entries are purged lazily, not at
backtrack time: on entry to `dumpPtr` every entry at depth ≥ the
current depth is removed and the cycle check consults the purged table,
in which an address is visible with its depth exactly when it was
recorded strictly below the current depth; and every successful
sub-dump preserves the strictly-shallower fragment of the table — the
entries of the still-active ancestors — exactly as it found it. -/
theorem tracker_purge_lazy_characterized (cfg : ConfigState) (heap : HeapT) :
    (∀ (p : PtrMap), NodupKeys p → ∀ d a pd,
      lookupPtr (purgePtr d p) a = some pd ↔ lookupPtr p a = some pd ∧ pd < d) ∧
    (∀ n v wasPtr static st st',
      dumpFuel cfg heap n v wasPtr static st = some st' → NodupKeys st.pointers →
      purgePtr st.depth st'.pointers = purgePtr st.depth st.pointers) := by
  constructor
  · intro p hnd d a pd
    exact lookupPtr_purgePtr hnd d a pd
  · intro n v wp s st st' h hnd
    exact (dump_good cfg heap n v wp s st st' h hnd).2.2

theorem tracker_purge_lazy_characterized_witness :
    (lookupPtr (purgePtr 1 [(4, 1), (7, 0)]) 7 = some 0 ↔
      lookupPtr [(4, 1), (7, 0)] 7 = some 0 ∧ 0 < 1) ∧
    purgePtr 0 (([(4, 1)] : PtrMap)) = purgePtr 0 ([] : PtrMap) :=
  ⟨(tracker_purge_lazy_characterized dcfg []).1 [(4, 1), (7, 0)]
      (by unfold NodupKeys; decide) 1 7 0,
    by
      have h := (tracker_purge_lazy_characterized dcfg [(4, .vInt tInt 9)]).2 10
        (.vStruct tT [("A", "", .vPtr tPInt (some 4)), ("B", "", .vInt tInt 7)])
        false false initState ⟨"utter_test.T\x7b\n A: &int(9),\n B: int(7),\n\x7d", 0,
          [(4, 1)], false, false⟩ (by decide) nodupKeys_nil
      simpa using h⟩

/-! ### Claim theorems: divergence of pointer-only reference cycles -/

/-- The self-pointer heap: address 0 holds a pointer back to
address 0 (Go: `type cyc *cyc; var c cyc; c = cyc(&c)`). -/
def heapSelf : HeapT := [(0, .vPtr tPCyc (some 0))]

/-- At depth 0 no recorded depth can be strictly smaller, so the chain
walk over the self-pointer heap never flags a cycle and never leaves
the loop, whatever the fuel and the table contents. -/
theorem chainWalk_heapSelf_diverges :
    ∀ f ind p ch,
      chainWalk dcfg heapSelf 0 f (.vPtr tPCyc (some 0)) ind p ch = none := by
  intro f
  induction f with
  | zero => intro ind p ch; rfl
  | succ m ih =>
    intro ind p ch
    have hh : lookupHeap heapSelf 0 = some (.vPtr tPCyc (some 0)) := rfl
    simp only [chainWalk, hh]
    cases hl : lookupPtr p 0 with
    | some pd => simp [hl, ih]
    | none => simp [hl, ih]

/-- **C1 counterexample**: on the finite self-pointer graph the
traversal never terminates: cycle detection compares the recorded
depth strictly against the current depth, and a chain that returns to
an address recorded at the *same* depth is never flagged, so
`dump`/`dumpPtr` re-descend forever.  No amount of fuel suffices. -/
theorem selfPointer_dump_diverges :
    (fun n => fdump dcfg heapSelf n (some (.vPtr tPCyc (some 0)))) =
      fun _ => none := by
  funext n
  cases n with
  | zero => rfl
  | succ m =>
    have hi : indentD dcfg initState = ⟨"", 0, [], false, false⟩ := rfl
    simp only [fdump, dumpFuel, hi, dumpPtrGo, chainWalk_heapSelf_diverges]

/-- A two-pointer reference cycle: 5 ↦ pointer to 6, 6 ↦ pointer
to 5. -/
def heapPP : HeapT := [(5, .vPtr tPCyc (some 6)), (6, .vPtr tPCyc (some 5))]

/-- The chain walk over the two-pointer cycle never exits: both
addresses are only ever recorded at the current depth, which the
strict cycle check ignores. -/
theorem chainWalk_heapPP_diverges :
    ∀ f, (∀ ind p ch,
        chainWalk dcfg heapPP 0 f (.vPtr tPCyc (some 5)) ind p ch = none) ∧
      (∀ ind p ch,
        chainWalk dcfg heapPP 0 f (.vPtr tPCyc (some 6)) ind p ch = none) := by
  intro f
  induction f with
  | zero => exact ⟨fun ind p ch => rfl, fun ind p ch => rfl⟩
  | succ m ih =>
    have h5 : lookupHeap heapPP 5 = some (.vPtr tPCyc (some 6)) := rfl
    have h6 : lookupHeap heapPP 6 = some (.vPtr tPCyc (some 5)) := rfl
    constructor
    · intro ind p ch
      simp only [chainWalk, h5]
      cases hl : lookupPtr p 5 with
      | some pd => simp [hl, ih.2]
      | none => simp [hl, ih.2]
    · intro ind p ch
      simp only [chainWalk, h6]
      cases hl : lookupPtr p 6 with
      | some pd => simp [hl, ih.1]
      | none => simp [hl, ih.1]

/-- **C3 counterexample**: a reference chain that returns to an
address already walked on the current path — here the two-pointer
cycle 5 → 6 → 5 — does *not* render the circular marker: the re-entered
address is recorded at the same depth as the current one, the strict
`pd < depth` check never fires, and the dump diverges instead. -/
theorem pointer_only_cycle_diverges :
    (fun n => fdump dcfg heapPP n (some (.vPtr tPCyc (some 5)))) =
      fun _ => none := by
  funext n
  cases n with
  | zero => rfl
  | succ m =>
    have hi : indentD dcfg initState = ⟨"", 0, [], false, false⟩ := rfl
    simp only [fdump, dumpFuel, hi, dumpPtrGo, (chainWalk_heapPP_diverges _).1]

/-- The classic detectable cycle: address 3 holds a struct whose field
points back at address 3. -/
def heapCyc : HeapT :=
  [(3, .vStruct tCyc [("p", "utter_test", .vPtr tPCyc (some 3))])]

/-- **C3 (amended)**: when a reference chain reaches an address
recorded at a *strictly smaller* depth — an ancestor recorded before
the current depth, as in a struct cycle — the circular marker is
rendered exactly once at the point of re-entry and no recursion into
the cycled-to value occurs: the whole dump is
`&utter_test.cyc{\n p: (*utter_test.cyc)<circular>,\n}\n`, with
nothing after the marker but the pair terminator and closing brace.  A
chain returning to an address recorded at the same depth is not
detected (see the counterexample). -/
theorem ancestor_cycle_renders_circular_once :
    fdumpOut dcfg heapCyc 10 (some (.vPtr tPCyc (some 3))) =
      some ("&utter_test.cyc\x7b\n p: (*utter_test.cyc)" ++ circularBytes ++ ",\n\x7d\n") := by
  decide

/-! ### Claim theorems: type elision -/

/-- **C6 counterexample**: with `ElideType` set, the annotation of a
*static* value is suppressed even when its type is not in the default
set: inside `[]float32` the elements are static, `float32` is not a
default type, and yet the annotation is suppressed — the element
renders as `1.0`, exactly as the repository's own test expects.  So
type elision does not fire *only* for default types. -/
theorem static_nondefault_type_elided :
    wantTypeB ecfg false true (.vFloat tFloat32 "1") = false ∧
    isDefaultT tFloat32 = false ∧
    fdumpOut ecfg [] 10 (some (.vSlice tSliceF32 false [.vFloat tFloat32 "1"])) =
      some "[]float32\x7b\n 1.0,\n\x7d\n" :=
  ⟨by decide, by decide, by decide⟩

/-- **C6 (amended)**: with `ElideType` set, the type annotation is
suppressed exactly when the value is not compound and is either
static (its concrete type already implied by its context) or of a
default type not reached through a pointer — or when the value is a
nil interface; and a value reached by dereferencing a pointer
(`dump(ve, true, false)` from `dumpPtr`) always wants its concrete
type annotation. -/
theorem elision_condition_characterized (cfg : ConfigState)
    (wasPtr static : Bool) (v : GoValue) (he : cfg.ElideType = true) :
    (wantTypeB cfg wasPtr static v = false ↔
      ((static = true ∨ (wasPtr = false ∧ isDefaultT (typeOf v) = true)) ∧
        isCompoundV v = false) ∨ isNilIfaceV v = true) ∧
    (isNilIfaceV v = false → wantTypeB cfg true false v = true) := by
  constructor
  · unfold wantTypeB
    rw [he]
    cases hS : static <;> cases hW : wasPtr <;> cases hD : isDefaultT (typeOf v) <;>
      cases hC : isCompoundV v <;> cases hN : isNilIfaceV v <;>
        simp [hS, hW, hD, hC, hN]
  · intro hN
    unfold wantTypeB
    rw [he]
    simp [hN]

theorem elision_condition_characterized_witness :
    wantTypeB ecfg true false (.vFloat tFloat32 "1") = true :=
  (elision_condition_characterized ecfg true false (.vFloat tFloat32 "1") rfl).2
    (by decide)

/-! ### Claim theorems: error-free traversal -/

/-- **C8**: no error is ever surfaced from within the traversal: the
embedding of `dump` has no error outcome at all (`none` only reports
exhausted fuel, never a failure), and every non-compound non-reference
kind — including `vOther`, the `default` arm that formats unrecognized
or future kinds through the generic conversion — succeeds outright
with a single unit of fuel, from any state. -/
theorem traversal_never_errors (cfg : ConfigState) (heap : HeapT) (n : Nat)
    (v : GoValue) (wasPtr static : Bool) (st : DState)
    (hnc : isCompoundV v = false) (hnp : isPtrV v = false) :
    (dumpFuel cfg heap (n + 1) v wasPtr static st).isSome := by
  cases v with
  | vPtr ty oa => exact absurd hnp (by simp [isPtrV])
  | vSlice ty ns elems => exact absurd hnc (by simp [isCompoundV])
  | vArray ty elems => exact absurd hnc (by simp [isCompoundV])
  | vMap ty nm pairs => exact absurd hnc (by simp [isCompoundV])
  | vStruct ty fields => exact absurd hnc (by simp [isCompoundV])
  | vInvalid => simp [dumpFuel]
  | vIface ty oi => cases oi <;> simp [dumpFuel, dumpNonPtrGo]
  | vBool ty b => simp [dumpFuel, dumpNonPtrGo]
  | vInt ty i => simp [dumpFuel, dumpNonPtrGo]
  | vUint ty u => simp [dumpFuel, dumpNonPtrGo]
  | vFloat ty x => simp [dumpFuel, dumpNonPtrGo]
  | vComplex ty x => simp [dumpFuel, dumpNonPtrGo]
  | vString ty x => simp [dumpFuel, dumpNonPtrGo]
  | vUintptr ty u => simp [dumpFuel, dumpNonPtrGo]
  | vChanFunc ty a => simp [dumpFuel, dumpNonPtrGo]
  | vOther ty text => simp [dumpFuel, dumpNonPtrGo]

theorem traversal_never_errors_witness :
    (dumpFuel dcfg [] (0 + 1)
      (.vOther ⟨"future.Kind", "Kind", "future", .kOther⟩ "opaque-value")
      false false initState).isSome :=
  traversal_never_errors dcfg [] 0
    (.vOther ⟨"future.Kind", "Kind", "future", .kOther⟩ "opaque-value")
    false false initState (by decide) (by decide)

/-! ### Claim theorems: the reference-chain rendering -/

/-- A value that is not reference-shaped: neither a pointer nor an
interface, so the chain walk stops on reaching it. -/
def notRefV : GoValue → Bool
  | .vPtr _ _ => false
  | .vIface _ _ => false
  | _ => true

/-- A well-formed reference chain in the heap: each listed address
holds a pointer to the next, and the last address holds the final
value `w`. -/
def ChainCells (H : HeapT) : List Addr → GoValue → Prop
  | [], _ => False
  | [a], w => lookupHeap H a = some w
  | a :: b :: rest, w =>
    (∃ ty, lookupHeap H a = some (.vPtr ty (some b))) ∧
      ChainCells H (b :: rest) w

/-- Purging at depth 0 empties the table: no recorded depth is
strictly below 0. -/
theorem purgePtr_zero (p : PtrMap) : purgePtr 0 p = [] := by
  unfold purgePtr
  simp

/-- One step of the chain walk over a non-reference referent. -/
theorem chainWalk_one_hop {cfg : ConfigState} {H : HeapT} {δ : Nat} {a : Addr}
    {w : GoValue} (ty : TypeInfo) (n ind : Nat) (p : PtrMap) (ch : List Addr)
    (hH : lookupHeap H a = some w)
    (hmiss : (match lookupPtr p a with
      | some pd => decide (pd < δ)
      | none => false) = false) :
    chainWalk cfg H δ (Nat.succ n) (.vPtr ty (some a)) ind p ch =
      match w with
      | .vIface ity none =>
        some (true, false, ind + 1, .vIface ity none, insertPtr p a δ,
          if cfg.CommentPointers then ch ++ [a] else ch)
      | .vIface _ (some w2) =>
        chainWalk cfg H δ n w2 (ind + 1) (insertPtr p a δ)
          (if cfg.CommentPointers then ch ++ [a] else ch)
      | w' =>
        chainWalk cfg H δ n w' (ind + 1) (insertPtr p a δ)
          (if cfg.CommentPointers then ch ++ [a] else ch) := by
  simp only [chainWalk, hmiss, hH]
  cases w
  all_goals try rfl
  rename_i ity oi
  cases oi <;> rfl

/-- Walking a well-formed chain to its non-reference end: at depth 0
the strict cycle check can never fire, so the walk counts exactly one
indirection per listed address and stops at the final value. -/
theorem chainWalk_chain (cfg : ConfigState) (H : HeapT) (w : GoValue)
    (hw : notRefV w = true) :
    ∀ (bs : List Addr) (a : Addr) (ty : TypeInfo) (ind : Nat) (p : PtrMap)
      (ch : List Addr), ChainCells H (a :: bs) w →
      ∃ p1, chainWalk cfg H 0 (bs.length + 2) (.vPtr ty (some a)) ind p ch =
        some (false, false, ind + bs.length + 1, w, p1,
          if cfg.CommentPointers then ch ++ (a :: bs) else ch) := by
  intro bs
  induction bs with
  | nil =>
    intro a ty ind p ch hc
    have hH : lookupHeap H a = some w := hc
    have hmiss : (match lookupPtr p a with
        | some pd => decide (pd < 0)
        | none => false) = false := by
      cases hl : lookupPtr p a <;> simp
    refine ⟨insertPtr p a 0, ?_⟩
    rw [show ([] : List Addr).length + 2 = Nat.succ (Nat.succ 0) from rfl,
      chainWalk_one_hop ty (Nat.succ 0) ind p ch hH hmiss]
    cases w with
    | vPtr t oa => simp [notRefV] at hw
    | vIface t oi => simp [notRefV] at hw
    | vBool t x => dsimp only; rw [chainWalk_nonPtr (by rfl)]; simp
    | vInt t x => dsimp only; rw [chainWalk_nonPtr (by rfl)]; simp
    | vUint t x => dsimp only; rw [chainWalk_nonPtr (by rfl)]; simp
    | vFloat t x => dsimp only; rw [chainWalk_nonPtr (by rfl)]; simp
    | vComplex t x => dsimp only; rw [chainWalk_nonPtr (by rfl)]; simp
    | vString t x => dsimp only; rw [chainWalk_nonPtr (by rfl)]; simp
    | vUintptr t x => dsimp only; rw [chainWalk_nonPtr (by rfl)]; simp
    | vChanFunc t x => dsimp only; rw [chainWalk_nonPtr (by rfl)]; simp
    | vSlice t x y => dsimp only; rw [chainWalk_nonPtr (by rfl)]; simp
    | vArray t x => dsimp only; rw [chainWalk_nonPtr (by rfl)]; simp
    | vMap t x y => dsimp only; rw [chainWalk_nonPtr (by rfl)]; simp
    | vStruct t x => dsimp only; rw [chainWalk_nonPtr (by rfl)]; simp
    | vOther t x => dsimp only; rw [chainWalk_nonPtr (by rfl)]; simp
    | vInvalid => dsimp only; rw [chainWalk_nonPtr (by rfl)]; simp
  | cons b rest ih =>
    intro a ty ind p ch hc
    obtain ⟨⟨tym, hH⟩, hcr⟩ := hc
    have hmiss : (match lookupPtr p a with
        | some pd => decide (pd < 0)
        | none => false) = false := by
      cases hl : lookupPtr p a <;> simp
    rw [show (b :: rest).length + 2 = Nat.succ (rest.length + 2) from rfl,
      chainWalk_one_hop ty (rest.length + 2) ind p ch hH hmiss]
    dsimp only
    obtain ⟨p1, hrec⟩ := ih b tym (ind + 1) (insertPtr p a 0)
      (if cfg.CommentPointers then ch ++ [a] else ch) hcr
    refine ⟨p1, ?_⟩
    rw [hrec]
    cases hcp : cfg.CommentPointers <;>
      simp [hcp, List.append_assoc] <;>
      omega

/-- The text written by the display portion of `dumpPtr` when there is
no address-chain comment. -/
theorem ptrHeader_out (k : Nat) (tb : String) (st : DState) :
    (ptrHeader k tb [] st).out =
      st.out ++ repeatStr ampersandBytes k ++
        (if startsStar tb
          then openParenBytes ++ replaceIfaceType tb ++ closeParenBytes
          else replaceIfaceType tb) := by
  unfold ptrHeader write
  by_cases hs : startsStar tb = true <;>
    simp [hs, String.append_assoc]

/-- **C5**: over a well-formed reference chain ending in a
non-reference value, `dumpPtr` finds exactly one indirection per chain
link — the walk over `k+1` listed addresses returns `indirects = k+1`
— and its rendering writes exactly that many ampersand glyphs followed
by the final value's type name, wrapped in parentheses precisely when
the name begins with `*`.  (With `CommentPointers` off there is no
address comment between the glyphs and the type name.) -/
theorem ampersand_per_indirection (cfg : ConfigState) (H : HeapT)
    (dmp : DumpRec) (w : GoValue) (bs : List Addr) (a : Addr)
    (ty : TypeInfo) (st : DState)
    (hw : notRefV w = true) (hcp : cfg.CommentPointers = false)
    (hc : ChainCells H (a :: bs) w) (hd0 : st.depth = 0) :
    (∃ p1, dumpPtrGo cfg H dmp (bs.length + 2) (.vPtr ty (some a)) st =
      dmp w true false (suppressType
        (ptrHeader (bs.length + 1) (typeOf w).str [] (withPointers p1 st)))) ∧
    (∀ (k : Nat) (tb : String) (stx : DState), (ptrHeader k tb [] stx).out =
      stx.out ++ repeatStr ampersandBytes k ++
        (if startsStar tb
          then openParenBytes ++ replaceIfaceType tb ++ closeParenBytes
          else replaceIfaceType tb)) := by
  constructor
  · obtain ⟨p1, hcw⟩ := chainWalk_chain cfg H w hw bs a ty 0
      (purgePtr st.depth st.pointers) [] hc
    rw [hcp] at hcw
    simp only [if_false, Bool.false_eq_true] at hcw
    refine ⟨p1, ?_⟩
    simp only [dumpPtrGo]
    rw [hd0] at *
    rw [hcw]
    simp
  · intro k tb stx
    exact ptrHeader_out k tb stx

/-! ### Claim theorems: key-sorted map determinism -/

/-- The lexicographic text comparison is asymmetric. -/
theorem strLtF_asymm : ∀ as bs : List Char, strLtF as bs = true → strLtF bs as = false := by
  intro as
  induction as with
  | nil =>
    intro bs h
    cases bs with
    | nil => simp [strLtF] at h
    | cons b bs => simp [strLtF]
  | cons a as ih =>
    intro bs h
    cases bs with
    | nil => simp [strLtF] at h
    | cons b bs =>
      by_cases h1 : a.toNat < b.toNat
      · have h2 : ¬ b.toNat < a.toNat := by omega
        simp [strLtF, h1, h2]
      · by_cases h2 : b.toNat < a.toNat
        · simp [strLtF, h1, h2] at h
        · simp only [strLtF, if_neg h1, if_neg h2] at h
          simp only [strLtF, if_neg h2, if_neg h1]
          exact ih bs h

theorem strLt_asymm (s t : String) (h : strLt s t = true) : strLt t s = false :=
  strLtF_asymm s.data t.data h

/-- The strict key comparison is asymmetric. -/
theorem ltValues_asymm : ∀ a b : GoValue, ltValues a b = true → ltValues b a = false := by
  intro a b h
  cases a <;> cases b <;>
    simp only [ltValues, decide_eq_true_eq, Bool.and_eq_true,
      Bool.not_eq_true'] at h ⊢ <;>
    first
      | (rw [decide_eq_false_iff_not]; omega)
      | exact strLt_asymm _ _ h
      | simp_all

/-- The derived non-strict order is total. -/
theorem pairLe_total (p q : GoValue × GoValue) :
    pairLe p q = true ∨ pairLe q p = true := by
  unfold pairLe
  by_cases h : ltValues q.1 p.1 = true
  · right
    rw [ltValues_asymm _ _ h]
    rfl
  · left
    simp [h]

theorem orderedInsertP_perm (p : GoValue × GoValue) :
    ∀ l, (orderedInsertP p l).Perm (p :: l) := by
  intro l
  induction l with
  | nil => exact List.Perm.refl _
  | cons q rest ih =>
    unfold orderedInsertP
    split
    · exact List.Perm.refl _
    · exact (List.Perm.cons q ih).trans (List.Perm.swap p q rest)

theorem sortMapPairs_perm : ∀ l, (sortMapPairs l).Perm l := by
  intro l
  induction l with
  | nil => exact List.Perm.refl _
  | cons p rest ih =>
    exact (orderedInsertP_perm p (sortMapPairs rest)).trans (List.Perm.cons p ih)

/-- Insertion keeps a list sorted, given transitivity of the order on
a carrier covering the elements involved. -/
theorem orderedInsertP_pairwise (L : List (GoValue × GoValue))
    (htr : ∀ x ∈ L, ∀ y ∈ L, ∀ z ∈ L,
      pairLe x y = true → pairLe y z = true → pairLe x z = true) :
    ∀ (l : List (GoValue × GoValue)) (p : GoValue × GoValue),
      (∀ x ∈ l, x ∈ L) → p ∈ L →
      l.Pairwise (fun x y => pairLe x y = true) →
      (orderedInsertP p l).Pairwise (fun x y => pairLe x y = true) := by
  intro l
  induction l with
  | nil =>
    intro p _ _ _
    exact List.pairwise_singleton _ p
  | cons q rest ih =>
    intro p hsub hp hpw
    obtain ⟨hq, hrest⟩ := List.pairwise_cons.mp hpw
    unfold orderedInsertP
    split
    · rename_i hle
      refine List.pairwise_cons.mpr ⟨?_, hpw⟩
      intro y hy
      rcases List.mem_cons.mp hy with rfl | hy'
      · exact hle
      · exact htr p hp q (hsub q (List.mem_cons_self q rest))
          y (hsub y (List.mem_cons_of_mem q hy')) hle (hq y hy')
    · rename_i hnle
      refine List.pairwise_cons.mpr ⟨?_, ih p (fun x hx =>
        hsub x (List.mem_cons_of_mem q hx)) hp hrest⟩
      intro y hy
      have hy' : y ∈ p :: rest := (orderedInsertP_perm p rest).mem_iff.mp hy
      rcases List.mem_cons.mp hy' with rfl | hy''
      · rcases pairLe_total y q with h | h
        · exact absurd h hnle
        · exact h
      · exact hq y hy''

theorem ampersand_per_indirection_witness :
    (ptrHeader 2 "*int" [] initState).out =
      initState.out ++ repeatStr ampersandBytes 2 ++
        (if startsStar "*int"
          then openParenBytes ++ replaceIfaceType "*int" ++ closeParenBytes
          else replaceIfaceType "*int") :=
  (ampersand_per_indirection dcfg [(10, .vPtr tPInt (some 11)), (11, .vInt tInt 5)]
    (dumpFuel dcfg [(10, .vPtr tPInt (some 11)), (11, .vInt tInt 5)] 5)
    (.vInt tInt 5) [11] 10 tPInt initState (by decide) rfl
    ⟨⟨tPInt, rfl⟩, rfl⟩ rfl).2 2 "*int" initState

theorem sortMapPairs_pairwise (L : List (GoValue × GoValue))
    (htr : ∀ x ∈ L, ∀ y ∈ L, ∀ z ∈ L,
      pairLe x y = true → pairLe y z = true → pairLe x z = true) :
    ∀ l, (∀ x ∈ l, x ∈ L) →
      (sortMapPairs l).Pairwise (fun x y => pairLe x y = true) := by
  intro l
  induction l with
  | nil => intro _; exact List.Pairwise.nil
  | cons p rest ih =>
    intro hsub
    unfold sortMapPairs
    exact orderedInsertP_pairwise L htr (sortMapPairs rest) p
      (fun x hx => hsub x (List.mem_cons_of_mem p
        ((sortMapPairs_perm rest).mem_iff.mp hx)))
      (hsub p (List.mem_cons_self p rest))
      (ih (fun x hx => hsub x (List.mem_cons_of_mem p hx)))

/-- Two sorted permutations of the same pair list are equal when the
keys of one are pairwise strictly comparable. -/
theorem sortedPairs_canon :
    ∀ l₁ l₂ : List (GoValue × GoValue), l₁.Perm l₂ →
      l₁.Pairwise (fun x y => pairLe x y = true) →
      l₂.Pairwise (fun x y => pairLe x y = true) →
      l₁.Pairwise (fun x y =>
        ltValues x.1 y.1 = true ∨ ltValues y.1 x.1 = true) →
      l₁ = l₂ := by
  intro l₁
  induction l₁ with
  | nil =>
    intro l₂ hp _ _ _
    exact hp.nil_eq
  | cons a t₁ ih =>
    intro l₂ hp h₁ h₂ hcomp
    cases l₂ with
    | nil => exact absurd hp.eq_nil (List.cons_ne_nil a t₁)
    | cons b t₂ =>
      obtain ⟨ha1, ht1⟩ := List.pairwise_cons.mp h₁
      obtain ⟨hb2, ht2⟩ := List.pairwise_cons.mp h₂
      obtain ⟨hac, htc⟩ := List.pairwise_cons.mp hcomp
      have hamem : a ∈ b :: t₂ := hp.mem_iff.mp (List.mem_cons_self a t₁)
      have key : a = b := by
        rcases List.mem_cons.mp hamem with h | hat₂
        · exact h
        · have hbmem : b ∈ a :: t₁ := hp.mem_iff.mpr (List.mem_cons_self b t₂)
          rcases List.mem_cons.mp hbmem with h | hbt₁
          · exact h.symm
          · have h1 : pairLe a b = true := ha1 b hbt₁
            have h2 : pairLe b a = true := hb2 a hat₂
            unfold pairLe at h1 h2
            rcases hac b hbt₁ with hlt | hlt
            · rw [hlt] at h2
              exact absurd h2 (by simp)
            · rw [hlt] at h1
              exact absurd h1 (by simp)
      subst key
      rw [ih t₂ hp.cons_inv ht1 ht2 htc]

/-- Sorting either of two permutations of the same pair list yields
the same list, provided the key order is transitive on the members and
the keys are pairwise strictly comparable. -/
theorem sortMapPairs_congr (l₁ l₂ : List (GoValue × GoValue))
    (hperm : l₁.Perm l₂)
    (hcomp : l₁.Pairwise (fun p q =>
      ltValues p.1 q.1 = true ∨ ltValues q.1 p.1 = true))
    (htrans : ∀ p ∈ l₁, ∀ q ∈ l₁, ∀ r ∈ l₁,
      pairLe p q = true → pairLe q r = true → pairLe p r = true) :
    sortMapPairs l₁ = sortMapPairs l₂ := by
  have hs₁ := sortMapPairs_pairwise l₁ htrans l₁ (fun x hx => hx)
  have hs₂ := sortMapPairs_pairwise l₁ htrans l₂
    (fun x hx => hperm.mem_iff.mpr hx)
  have hp : (sortMapPairs l₁).Perm (sortMapPairs l₂) :=
    ((sortMapPairs_perm l₁).trans hperm).trans (sortMapPairs_perm l₂).symm
  have hcomp' : (sortMapPairs l₁).Pairwise (fun p q =>
      ltValues p.1 q.1 = true ∨ ltValues q.1 p.1 = true) :=
    ((sortMapPairs_perm l₁).pairwise_iff (fun h => Or.symm h)).mpr hcomp
  exact sortedPairs_canon _ _ hp hs₁ hs₂ hcomp'

def tBool : TypeInfo := ⟨"bool", "bool", "", .kBool⟩
def tMapIB : TypeInfo := ⟨"map[int]bool", "", "", .kMap⟩
def tMapTB : TypeInfo := ⟨"map[utter_test.T]bool", "", "", .kMap⟩

/-- Two presentation orders of the same two-entry map whose keys are
distinct structs of the same type: the sort ties on both keys (their
sort strings coincide) and, being stable, preserves each presentation
order, so the dumps differ byte-for-byte. -/
theorem sorted_map_two_runs_differ :
    fdumpOut scfg [] 6 (some (.vMap tMapTB false
      [(.vStruct tT [("A", "", .vInt tInt 1)], .vBool tBool true),
       (.vStruct tT [("A", "", .vInt tInt 2)], .vBool tBool false)])) ≠
    fdumpOut scfg [] 6 (some (.vMap tMapTB false
      [(.vStruct tT [("A", "", .vInt tInt 2)], .vBool tBool false),
       (.vStruct tT [("A", "", .vInt tInt 1)], .vBool tBool true)])) := by
  decide

/-- **C7**: with key sorting enabled, dumping a map is independent of
the presentation (iteration) order of its entries — full state
equality, for any fuel, configuration, heap and entry state — provided
the key order is transitive on the map's entries and the keys are
pairwise strictly comparable, as they are for any homogeneous native
key type.  Keys whose comparison falls back to the type-based sort
string can tie or order intransitively, and the property then fails
(see the counterexample with two struct keys). -/
theorem sorted_map_dump_deterministic (cfg : ConfigState) (heap : HeapT)
    (hsk : cfg.SortKeys = true) (ty : TypeInfo)
    (l₁ l₂ : List (GoValue × GoValue)) (hperm : l₁.Perm l₂)
    (hcomp : l₁.Pairwise (fun p q =>
      ltValues p.1 q.1 = true ∨ ltValues q.1 p.1 = true))
    (htrans : ∀ p ∈ l₁, ∀ q ∈ l₁, ∀ r ∈ l₁,
      pairLe p q = true → pairLe q r = true → pairLe p r = true)
    (n : Nat) (wasPtr static : Bool) (st : DState) :
    dumpFuel cfg heap n (.vMap ty false l₁) wasPtr static st =
      dumpFuel cfg heap n (.vMap ty false l₂) wasPtr static st := by
  have hcanon := sortMapPairs_congr l₁ l₂ hperm hcomp htrans
  cases n with
  | zero => rfl
  | succ m =>
    simp only [dumpFuel, dumpNonPtrGo, wantTypeB, typePreamble, typeOf,
      isCompoundV, isNilIfaceV, hsk, if_true]
    rw [hcanon]

theorem sorted_map_dump_deterministic_witness :
    dumpFuel scfg [] 5 (.vMap tMapIB false
        [(.vInt tInt 2, .vBool tBool true), (.vInt tInt 1, .vBool tBool false)])
      false false initState =
    dumpFuel scfg [] 5 (.vMap tMapIB false
        [(.vInt tInt 1, .vBool tBool false), (.vInt tInt 2, .vBool tBool true)])
      false false initState :=
  sorted_map_dump_deterministic scfg [] rfl tMapIB _ _
    (List.Perm.swap (.vInt tInt 1, .vBool tBool false)
      (.vInt tInt 2, .vBool tBool true) [])
    (by decide) (by decide) 5 false false initState

/-! ### Claim machinery: reference-free values and table independence

A value that contains no pointer anywhere (after the interface
unwrapping each container loop performs) is dumped without ever
reading or writing the pointer table: only `dumpPtr` touches it.  The
fuel index mirrors the fuel flow of `dumpFuel`, so the shift lemma
below goes through by plain fuel induction. -/

def refFreeN : Nat → GoValue → Bool
  | 0, _ => true
  | Nat.succ m, v =>
    match v with
    | .vPtr _ _ => false
    | .vSlice _ _ elems => elems.all (fun e => refFreeN m (unpackValue e).1)
    | .vArray _ elems => elems.all (fun e => refFreeN m (unpackValue e).1)
    | .vMap _ _ pairs =>
      pairs.all (fun p =>
        refFreeN m (unpackValue p.1).1 && refFreeN m (unpackValue p.2).1)
    | .vStruct _ fields => fields.all (fun f => refFreeN m (unpackValue f.2.2).1)
    | _ => true

theorem write_withPointers (s : String) (q : PtrMap) (st : DState) :
    write s (withPointers q st) = withPointers q (write s st) := rfl

theorem indentD_withPointers (cfg : ConfigState) (q : PtrMap) (st : DState) :
    indentD cfg (withPointers q st) = withPointers q (indentD cfg st) := by
  unfold indentD withPointers write
  by_cases h : st.ignoreNextIndent <;> simp [h]

theorem typePreamble_withPointers (cfg : ConfigState) (w : Bool) (v : GoValue)
    (q : PtrMap) (st : DState) :
    typePreamble cfg w v (withPointers q st) =
      withPointers q (typePreamble cfg w v st) := by
  unfold typePreamble withPointers write indentD
  by_cases h : st.ignoreNextType <;> by_cases h2 : st.ignoreNextIndent <;>
    by_cases h3 : w <;> by_cases h4 : isCompoundV v <;>
    simp [h, h2, h3, h4, write]

theorem braceOpen_withPointers (q : PtrMap) (st : DState) :
    braceOpen (withPointers q st) = withPointers q (braceOpen st) := rfl

theorem braceClose_withPointers (cfg : ConfigState) (q : PtrMap) (st : DState) :
    braceClose cfg (withPointers q st) = withPointers q (braceClose cfg st) := by
  unfold braceClose withPointers write indentD
  by_cases h : st.ignoreNextIndent <;> simp [h, write]

theorem afterColon_withPointers (q : PtrMap) (st : DState) :
    afterColon (withPointers q st) = withPointers q (afterColon st) := rfl

theorem fieldPrefix_withPointers (cfg : ConfigState) (s : String) (q : PtrMap)
    (st : DState) :
    fieldPrefix cfg s (withPointers q st) =
      withPointers q (fieldPrefix cfg s st) := by
  unfold fieldPrefix withPointers write indentD
  by_cases h : st.ignoreNextIndent <;> simp [h, write]

theorem suppressType_withPointers (q : PtrMap) (st : DState) :
    suppressType (withPointers q st) = withPointers q (suppressType st) := rfl

theorem ptrHeader_withPointers (ind : Nat) (tb : String) (ch : List Addr)
    (q : PtrMap) (st : DState) :
    ptrHeader ind tb ch (withPointers q st) =
      withPointers q (ptrHeader ind tb ch st) := by
  unfold ptrHeader withPointers write
  repeat' split
  all_goals rfl

theorem ite_write_withPointers (c : Prop) [Decidable c] (s : String) (q : PtrMap)
    (st : DState) :
    (if c then write s (withPointers q st) else withPointers q st) =
      withPointers q (if c then write s st else st) := by
  split <;> rfl

theorem dumpElemsGo_shift {dmp : DumpRec} {P : GoValue → Bool}
    (hdmp : ∀ v wp s st q, P v = true →
      dmp v wp s (withPointers q st) = (dmp v wp s st).map (withPointers q)) :
    ∀ (l : List GoValue) (st : DState) (q : PtrMap),
      l.all (fun e => P (unpackValue e).1) = true →
      dumpElemsGo dmp l (withPointers q st) =
        (dumpElemsGo dmp l st).map (withPointers q) := by
  intro l
  induction l with
  | nil => intro st q _; rfl
  | cons vi rest ih =>
    intro st q hall
    simp only [List.all_cons, Bool.and_eq_true] at hall
    rcases hu : unpackValue vi with ⟨v, wp, s⟩
    simp only [dumpElemsGo, hu]
    rw [hdmp v wp s st q (by rw [hu] at hall; exact hall.1)]
    cases hd : dmp v wp s st with
    | none => simp [hd]
    | some st2 =>
      simp only [hd, Option.map_some']
      rw [write_withPointers]
      exact ih (write commaNewlineBytes st2) q hall.2

theorem dumpPairsGo_shift {dmp : DumpRec} {P : GoValue → Bool}
    (hdmp : ∀ v wp s st q, P v = true →
      dmp v wp s (withPointers q st) = (dmp v wp s st).map (withPointers q)) :
    ∀ (l : List (GoValue × GoValue)) (st : DState) (q : PtrMap),
      l.all (fun p => P (unpackValue p.1).1 && P (unpackValue p.2).1) = true →
      dumpPairsGo dmp l (withPointers q st) =
        (dumpPairsGo dmp l st).map (withPointers q) := by
  intro l
  induction l with
  | nil => intro st q _; rfl
  | cons kv rest ih =>
    intro st q hall
    simp only [List.all_cons, Bool.and_eq_true] at hall
    obtain ⟨⟨hk, hv⟩, hrest⟩ := hall
    obtain ⟨k, val⟩ := kv
    rcases hu : unpackValue k with ⟨kv', kp, ks⟩
    rcases hu2 : unpackValue val with ⟨vv, vp, vs⟩
    simp only [dumpPairsGo, hu, hu2]
    rw [hdmp kv' kp ks st q (by rw [hu] at hk; exact hk)]
    cases hd : dmp kv' kp ks st with
    | none => simp [hd]
    | some st2 =>
      simp only [hd, Option.map_some']
      rw [afterColon_withPointers,
        hdmp vv vp vs (afterColon st2) q (by rw [hu2] at hv; exact hv)]
      cases hd2 : dmp vv vp vs (afterColon st2) with
      | none => simp [hd2]
      | some st3 =>
        simp only [hd2, Option.map_some']
        rw [write_withPointers]
        exact ih (write commaNewlineBytes st3) q hrest

theorem dumpFieldsGo_shift {cfg : ConfigState} {dmp : DumpRec} {P : GoValue → Bool}
    (hdmp : ∀ v wp s st q, P v = true →
      dmp v wp s (withPointers q st) = (dmp v wp s st).map (withPointers q)) :
    ∀ (l : List (String × String × GoValue)) (st : DState) (q : PtrMap),
      l.all (fun f => P (unpackValue f.2.2).1) = true →
      dumpFieldsGo cfg dmp l (withPointers q st) =
        (dumpFieldsGo cfg dmp l st).map (withPointers q) := by
  intro l
  induction l with
  | nil => intro st q _; rfl
  | cons fld rest ih =>
    intro st q hall
    simp only [List.all_cons, Bool.and_eq_true] at hall
    obtain ⟨fname, fpkg, fv⟩ := fld
    rcases hu : unpackValue fv with ⟨v, wp, s⟩
    simp only [dumpFieldsGo, hu]
    by_cases hskip : (cfg.IgnoreUnexported && fpkg != "") = true
    · rw [if_pos hskip, if_pos hskip]
      exact ih st q hall.2
    · rw [if_neg hskip, if_neg hskip]
      rw [fieldPrefix_withPointers,
        hdmp v wp s (fieldPrefix cfg fname st) q (by rw [hu] at hall; exact hall.1)]
      cases hd : dmp v wp s (fieldPrefix cfg fname st) with
      | none => simp [hd]
      | some st2 =>
        simp only [hd, Option.map_some']
        rw [write_withPointers]
        exact ih (write commaNewlineBytes st2) q hall.2

theorem dumpSliceGo_shift {cfg : ConfigState} {dmp : DumpRec} {P : GoValue → Bool}
    (hdmp : ∀ v wp s st q, P v = true →
      dmp v wp s (withPointers q st) = (dmp v wp s st).map (withPointers q))
    (l : List GoValue) (st : DState) (q : PtrMap)
    (hall : l.all (fun e => P (unpackValue e).1) = true) :
    dumpSliceGo cfg dmp l (withPointers q st) =
      (dumpSliceGo cfg dmp l st).map (withPointers q) := by
  unfold dumpSliceGo
  cases hb : dumpSliceBytes? l with
  | some buf => simp [hb, write_withPointers, withPointers, write]
  | none =>
    simp only [hb]
    exact dumpElemsGo_shift hdmp l st q hall

theorem dumpNonPtrGo_shift {cfg : ConfigState} {dmp : DumpRec} {m : Nat}
    (hdmp : ∀ v wp s st q, refFreeN m v = true →
      dmp v wp s (withPointers q st) = (dmp v wp s st).map (withPointers q)) :
    ∀ (v : GoValue) (wp s : Bool) (st : DState) (q : PtrMap),
      refFreeN (m + 1) v = true →
      dumpNonPtrGo cfg dmp v wp s (withPointers q st) =
        (dumpNonPtrGo cfg dmp v wp s st).map (withPointers q) := by
  intro v wp s st q h
  cases v with
  | vSlice ty nil elems =>
    cases nil with
    | true =>
      simp only [dumpNonPtrGo, typePreamble_withPointers, write_withPointers,
        Option.map_some']
      all_goals split <;> rfl
    | false =>
      simp only [refFreeN] at h
      simp only [dumpNonPtrGo]
      rw [typePreamble_withPointers, braceOpen_withPointers,
        dumpSliceGo_shift hdmp elems _ q h]
      cases hres : dumpSliceGo cfg dmp elems
          (braceOpen (typePreamble cfg
            (wantTypeB cfg wp s (.vSlice ty false elems)) (.vSlice ty false elems) st)) with
      | none => simp [hres]
      | some st2 =>
        simp [hres, braceClose_withPointers, ite_write_withPointers, isCompoundV]
  | vArray ty elems =>
    simp only [refFreeN] at h
    simp only [dumpNonPtrGo]
    rw [typePreamble_withPointers, braceOpen_withPointers,
      dumpSliceGo_shift hdmp elems _ q h]
    cases hres : dumpSliceGo cfg dmp elems
        (braceOpen (typePreamble cfg
          (wantTypeB cfg wp s (.vArray ty elems)) (.vArray ty elems) st)) with
    | none => simp [hres]
    | some st2 =>
      simp [hres, braceClose_withPointers, ite_write_withPointers, isCompoundV]
  | vMap ty nil pairs =>
    cases nil with
    | true =>
      simp only [dumpNonPtrGo, typePreamble_withPointers, write_withPointers,
        Option.map_some']
      all_goals split <;> rfl
    | false =>
      simp only [refFreeN] at h
      have hall : ∀ l : List (GoValue × GoValue),
          (if cfg.SortKeys then sortMapPairs pairs else pairs) = l →
          l.all (fun p =>
            refFreeN m (unpackValue p.1).1 && refFreeN m (unpackValue p.2).1) = true := by
        intro l hl
        subst hl
        split
        · rw [List.all_eq_true] at h ⊢
          exact fun x hx => h x ((sortMapPairs_perm pairs).subset hx)
        · exact h
      simp only [dumpNonPtrGo]
      rw [typePreamble_withPointers, braceOpen_withPointers,
        dumpPairsGo_shift hdmp _ _ q (hall _ rfl)]
      cases hres : dumpPairsGo dmp (if cfg.SortKeys then sortMapPairs pairs else pairs)
          (braceOpen (typePreamble cfg
            (wantTypeB cfg wp s (.vMap ty false pairs)) (.vMap ty false pairs) st)) with
      | none => simp [hres]
      | some st2 =>
        simp [hres, braceClose_withPointers, ite_write_withPointers, isCompoundV]
  | vStruct ty fields =>
    simp only [refFreeN] at h
    simp only [dumpNonPtrGo]
    rw [typePreamble_withPointers, braceOpen_withPointers,
      dumpFieldsGo_shift hdmp fields _ q h]
    cases hres : dumpFieldsGo cfg dmp fields
        (braceOpen (typePreamble cfg
          (wantTypeB cfg wp s (.vStruct ty fields)) (.vStruct ty fields) st)) with
    | none => simp [hres]
    | some st2 =>
      simp [hres, braceClose_withPointers, ite_write_withPointers, isCompoundV]
  | vIface ty ov =>
    cases ov with
    | none =>
      simp only [dumpNonPtrGo, typePreamble_withPointers, write_withPointers,
        Option.map_some']
      all_goals split <;> rfl
    | some w =>
      simp only [dumpNonPtrGo, typePreamble_withPointers, write_withPointers,
        Option.map_some']
      all_goals split <;> rfl
  | vInvalid =>
    simp only [dumpNonPtrGo, typePreamble_withPointers, write_withPointers,
      Option.map_some']
    all_goals split <;> rfl
  | vPtr ty oa =>
    simp only [dumpNonPtrGo, typePreamble_withPointers, write_withPointers,
      Option.map_some']
    all_goals split <;> rfl
  | vBool ty b =>
    simp only [dumpNonPtrGo, typePreamble_withPointers, write_withPointers,
      Option.map_some']
    all_goals split <;> rfl
  | vInt ty i =>
    simp only [dumpNonPtrGo, typePreamble_withPointers, write_withPointers,
      Option.map_some']
    all_goals split <;> rfl
  | vUint ty u =>
    simp only [dumpNonPtrGo, typePreamble_withPointers, write_withPointers,
      Option.map_some']
    all_goals split <;> rfl
  | vFloat ty x =>
    simp only [dumpNonPtrGo, typePreamble_withPointers, write_withPointers,
      Option.map_some']
    all_goals split <;> rfl
  | vComplex ty x =>
    simp only [dumpNonPtrGo, typePreamble_withPointers, write_withPointers,
      Option.map_some']
    all_goals split <;> rfl
  | vString ty x =>
    simp only [dumpNonPtrGo, typePreamble_withPointers, write_withPointers,
      Option.map_some']
    all_goals split <;> rfl
  | vUintptr ty u =>
    simp only [dumpNonPtrGo, typePreamble_withPointers, write_withPointers,
      Option.map_some']
    all_goals split <;> rfl
  | vChanFunc ty a =>
    simp only [dumpNonPtrGo, typePreamble_withPointers, write_withPointers,
      Option.map_some']
    all_goals split <;> rfl
  | vOther ty text =>
    simp only [dumpNonPtrGo, typePreamble_withPointers, write_withPointers,
      Option.map_some']
    all_goals split <;> rfl

/-- A reference-free value's dump never reads or writes the pointer
table: the run from any two states differing only in the table
produces the same result with the respective table untouched. -/
theorem dump_shift (cfg : ConfigState) (H : HeapT) :
    ∀ (n : Nat) (v : GoValue) (wp s : Bool) (st : DState) (q : PtrMap),
      refFreeN n v = true →
      dumpFuel cfg H n v wp s (withPointers q st) =
        (dumpFuel cfg H n v wp s st).map (withPointers q) := by
  intro n
  induction n with
  | zero => intro v wp s st q _; rfl
  | succ m ih =>
    intro v wp s st q h
    cases v <;>
      first
        | rfl
        | exact dumpNonPtrGo_shift
            (fun v' wp' s' st' q' h' => ih v' wp' s' st' q' h') _ wp s st q h
        | exact absurd h (by simp [refFreeN])

/-- One-hop specialization of the chain walk: a pointer whose address
is not recorded and whose referent is neither a pointer nor an
interface walks exactly one link, recording the address at the current
depth, and flags nothing. -/
theorem chainWalk_one_hop_notRef {cfg : ConfigState} {H : HeapT} {δ : Nat}
    {a : Addr} {w : GoValue} (ty : TypeInfo) (n ind : Nat) (p : PtrMap)
    (ch : List Addr) (hH : lookupHeap H a = some w) (hw : notRefV w = true)
    (hmiss : (match lookupPtr p a with
      | some pd => decide (pd < δ)
      | none => false) = false) :
    chainWalk cfg H δ (Nat.succ (Nat.succ n)) (.vPtr ty (some a)) ind p ch =
      some (false, false, ind + 1, w, insertPtr p a δ,
        if cfg.CommentPointers then ch ++ [a] else ch) := by
  rw [chainWalk_one_hop ty (Nat.succ n) ind p ch hH hmiss]
  cases w with
  | vPtr pty poa => exact absurd hw (by simp [notRefV])
  | vIface ity ov =>
    cases ov with
    | none => exact absurd hw (by simp [notRefV])
    | some w2 => exact absurd hw (by simp [notRefV])
  | vInvalid => exact chainWalk_nonPtr (by rfl) n _ _ _
  | vBool t x => exact chainWalk_nonPtr (by rfl) n _ _ _
  | vInt t x => exact chainWalk_nonPtr (by rfl) n _ _ _
  | vUint t x => exact chainWalk_nonPtr (by rfl) n _ _ _
  | vFloat t x => exact chainWalk_nonPtr (by rfl) n _ _ _
  | vComplex t x => exact chainWalk_nonPtr (by rfl) n _ _ _
  | vString t x => exact chainWalk_nonPtr (by rfl) n _ _ _
  | vUintptr t x => exact chainWalk_nonPtr (by rfl) n _ _ _
  | vChanFunc t x => exact chainWalk_nonPtr (by rfl) n _ _ _
  | vSlice t nl es => exact chainWalk_nonPtr (by rfl) n _ _ _
  | vArray t es => exact chainWalk_nonPtr (by rfl) n _ _ _
  | vMap t nl ps => exact chainWalk_nonPtr (by rfl) n _ _ _
  | vStruct t fs => exact chainWalk_nonPtr (by rfl) n _ _ _
  | vOther t s2 => exact chainWalk_nonPtr (by rfl) n _ _ _

/-- A successful dump of a reference-free value leaves the pointer
table exactly as it found it. -/
theorem dump_refFree_pointers {cfg : ConfigState} {H : HeapT} {n : Nat}
    {v : GoValue} {wp s : Bool} {st st' : DState}
    (hrf : refFreeN n v = true) (h : dumpFuel cfg H n v wp s st = some st') :
    st'.pointers = st.pointers := by
  have hs := dump_shift cfg H n v wp s st st.pointers hrf
  have he : withPointers st.pointers st = st := rfl
  rw [he, h] at hs
  simp only [Option.map_some'] at hs
  simpa [withPointers] using congrArg DState.pointers (Option.some.inj hs)

/-- One struct-field pointer step: a one-hop chain to a reference-free
referent renders the header and then runs the referent's dump, whose
only effect on the table is the single entry the walk recorded. -/
theorem ptrField_step (cfg : ConfigState) (H : HeapT) (m : Nat) (tp : TypeInfo)
    (y : Addr) (w : GoValue) (wp s : Bool) (st0 : DState)
    (hcp : cfg.CommentPointers = false)
    (hH : lookupHeap H y = some w) (hw : notRefV w = true)
    (hrf : refFreeN (m + 1) w = true)
    (hmiss : lookupPtr (purgePtr st0.depth st0.pointers) y = none) :
    dumpFuel cfg H (m + 2) (.vPtr tp (some y)) wp s st0 =
      (dumpFuel cfg H (m + 1) w true false
        (suppressType (ptrHeader 1 (typeOf w).str [] (indentD cfg st0)))).map
        (withPointers (insertPtr (purgePtr st0.depth st0.pointers) y st0.depth)) := by
  have hstep : dumpFuel cfg H (m + 2) (.vPtr tp (some y)) wp s st0 =
      dumpPtrGo cfg H (fun v' wp' s' st' => dumpFuel cfg H (m + 1) v' wp' s' st')
        (m + 2) (.vPtr tp (some y)) (indentD cfg st0) := rfl
  rw [hstep]
  simp only [dumpPtrGo, indentD_depth, indentD_pointers]
  rw [show (m + 2 : Nat) = Nat.succ (Nat.succ m) from rfl,
    chainWalk_one_hop_notRef tp m 0 (purgePtr st0.depth st0.pointers) [] hH hw
      (by rw [hmiss])]
  simp only [hcp, Bool.false_eq_true, if_false, Nat.zero_add]
  rw [ptrHeader_withPointers, suppressType_withPointers]
  exact dump_shift cfg H (m + 1) w true false _ _ hrf

/-- The table-independent core of dumping a struct of two exported
pointer fields `A` and `B` whose one-hop referents are the same
reference-free value: the text depends only on the entry state and the
referent, never on which addresses the fields held. -/
def sibOut (cfg : ConfigState) (H : HeapT) (m : Nat) (w : GoValue) (a : Addr)
    (stb : DState) : Option String :=
  let stA0 := fieldPrefix cfg "A" stb
  let pA := insertPtr (purgePtr stA0.depth stA0.pointers) a stA0.depth
  match dumpFuel cfg H (m + 1) w true false
      (suppressType (ptrHeader 1 (typeOf w).str [] (indentD cfg stA0))) with
  | none => none
  | some stA =>
    let stB0 := fieldPrefix cfg "B" (write commaNewlineBytes (withPointers pA stA))
    match dumpFuel cfg H (m + 1) w true false
        (suppressType (ptrHeader 1 (typeOf w).str [] (indentD cfg stB0))) with
    | none => none
    | some stB => some (braceClose cfg (write commaNewlineBytes stB)).out

theorem sibling_ptr_struct_out (cfg : ConfigState) (H : HeapT) (m : Nat)
    (tp : TypeInfo) (a y : Addr) (w : GoValue) (st : DState)
    (hcp : cfg.CommentPointers = false) (hnd : NodupKeys st.pointers)
    (ha : lookupHeap H a = some w) (hy : lookupHeap H y = some w)
    (hw : notRefV w = true) (hrf : refFreeN (m + 1) w = true)
    (hla : lookupPtr (purgePtr (st.depth + 1) st.pointers) a = none)
    (hly : lookupPtr (purgePtr (st.depth + 1) st.pointers) y = none) :
    (dumpFuel cfg H (m + 3) (.vStruct tT
        [("A", "", .vPtr tp (some a)), ("B", "", .vPtr tp (some y))])
      false false st).map DState.out =
    sibOut cfg H m w a (braceOpen (typePreamble cfg
      (wantTypeB cfg false false (.vStruct tT
        [("A", "", .vPtr tp (some a)), ("B", "", .vPtr tp (some y))]))
      (.vStruct tT [("A", "", .vPtr tp (some a)), ("B", "", .vPtr tp (some y))])
      st)) := by
  have hstep : dumpFuel cfg H (m + 3) (.vStruct tT
        [("A", "", .vPtr tp (some a)), ("B", "", .vPtr tp (some y))])
      false false st =
      dumpNonPtrGo cfg (fun v' wp' s' st' => dumpFuel cfg H (m + 2) v' wp' s' st')
        (.vStruct tT [("A", "", .vPtr tp (some a)), ("B", "", .vPtr tp (some y))])
        false false st := rfl
  rw [hstep]
  simp only [dumpNonPtrGo, dumpFieldsGo, sibOut, unpackValue, isPtrV,
    bne_self_eq_false, Bool.and_false, Bool.false_eq_true, if_false,
    isCompoundV, Bool.not_true]
  generalize hstb : braceOpen (typePreamble cfg
      (wantTypeB cfg false false (GoValue.vStruct tT
        [("A", "", GoValue.vPtr tp (some a)), ("B", "", GoValue.vPtr tp (some y))]))
      (GoValue.vStruct tT
        [("A", "", GoValue.vPtr tp (some a)), ("B", "", GoValue.vPtr tp (some y))])
      st) = stb
  have hstbd : stb.depth = st.depth + 1 := by
    rw [← hstb, braceOpen_depth, typePreamble_depth]
  have hstbp : stb.pointers = st.pointers := by
    rw [← hstb, braceOpen_pointers, typePreamble_pointers]
  have hmissA : lookupPtr (purgePtr (fieldPrefix cfg "A" stb).depth
      (fieldPrefix cfg "A" stb).pointers) a = none := by
    rw [fieldPrefix_depth, fieldPrefix_pointers, hstbd, hstbp]
    exact hla
  rw [ptrField_step cfg H m tp a w true true (fieldPrefix cfg "A" stb)
    hcp ha hw hrf hmissA]
  cases hA : dumpFuel cfg H (m + 1) w true false
      (suppressType (ptrHeader 1 (typeOf w).str []
        (indentD cfg (fieldPrefix cfg "A" stb)))) with
  | none => simp [hA]
  | some stA =>
    simp only [hA, Option.map_some']
    have hAdep : stA.depth = st.depth + 1 := by
      have hgood := (dump_good cfg H (m + 1)) w true false _ stA hA (by
        rw [suppressType_pointers, ptrHeader_pointers, indentD_pointers,
          fieldPrefix_pointers, hstbp]
        exact hnd)
      rw [suppressType_depth, ptrHeader_depth, indentD_depth, fieldPrefix_depth,
        hstbd] at hgood
      exact hgood.1
    have hmissB : lookupPtr (purgePtr
        (fieldPrefix cfg "B" (write commaNewlineBytes (withPointers
          (insertPtr (purgePtr (fieldPrefix cfg "A" stb).depth
            (fieldPrefix cfg "A" stb).pointers) a (fieldPrefix cfg "A" stb).depth)
          stA))).depth
        (fieldPrefix cfg "B" (write commaNewlineBytes (withPointers
          (insertPtr (purgePtr (fieldPrefix cfg "A" stb).depth
            (fieldPrefix cfg "A" stb).pointers) a (fieldPrefix cfg "A" stb).depth)
          stA))).pointers) y = none := by
      simp only [fieldPrefix_depth, fieldPrefix_pointers, write_depth,
        write_pointers, withPointers_depth, withPointers_pointers, hAdep,
        hstbd, hstbp]
      rw [purgePtr_insertPtr (nodupKeys_purge _ _ hnd)
        (fun pd hpd => by rw [hla] at hpd; exact absurd hpd (by simp))]
      rw [purgePtr_purgePtr (Nat.le_refl _)]
      exact hly
    rw [ptrField_step cfg H m tp y w true true _ hcp hy hw hrf hmissB]
    cases hB : dumpFuel cfg H (m + 1) w true false
        (suppressType (ptrHeader 1 (typeOf w).str []
          (indentD cfg (fieldPrefix cfg "B" (write commaNewlineBytes (withPointers
            (insertPtr (purgePtr (fieldPrefix cfg "A" stb).depth
              (fieldPrefix cfg "A" stb).pointers) a
              (fieldPrefix cfg "A" stb).depth) stA)))))) with
    | none => simp [hB]
    | some stB =>
      simp only [hB, Option.map_some']
      rw [write_withPointers, braceClose_withPointers]
      rfl

/-- **C2**: two sibling pointer fields holding the same address (with
a reference-free shared referent and no ancestor recording of either
address) dump exactly as they would with two distinct addresses
holding identical referents: both referents are rendered in full and
neither is flagged circular — on entry to each field's `dumpPtr` the
same-depth entry left by the sibling is purged, and the cycle check
only ever fires for strictly shallower records. -/
theorem shared_sibling_refs_render_fully (cfg : ConfigState) (H : HeapT) (m : Nat)
    (tp : TypeInfo) (a b : Addr) (w : GoValue) (st : DState)
    (hcp : cfg.CommentPointers = false) (hnd : NodupKeys st.pointers)
    (ha : lookupHeap H a = some w) (hb : lookupHeap H b = some w)
    (hw : notRefV w = true) (hrf : refFreeN (m + 1) w = true)
    (hla : lookupPtr (purgePtr (st.depth + 1) st.pointers) a = none)
    (hlb : lookupPtr (purgePtr (st.depth + 1) st.pointers) b = none) :
    (dumpFuel cfg H (m + 3) (.vStruct tT
        [("A", "", .vPtr tp (some a)), ("B", "", .vPtr tp (some a))])
      false false st).map DState.out =
    (dumpFuel cfg H (m + 3) (.vStruct tT
        [("A", "", .vPtr tp (some a)), ("B", "", .vPtr tp (some b))])
      false false st).map DState.out := by
  rw [sibling_ptr_struct_out cfg H m tp a a w st hcp hnd ha ha hw hrf hla hla,
    sibling_ptr_struct_out cfg H m tp a b w st hcp hnd ha hb hw hrf hla hlb]
  rfl

theorem shared_sibling_refs_render_fully_witness :
    (dumpFuel dcfg [(4, .vInt tInt 9), (5, .vInt tInt 9)] 4 (.vStruct tT
        [("A", "", .vPtr tPInt (some 4)), ("B", "", .vPtr tPInt (some 4))])
      false false initState).map DState.out =
    (dumpFuel dcfg [(4, .vInt tInt 9), (5, .vInt tInt 9)] 4 (.vStruct tT
        [("A", "", .vPtr tPInt (some 4)), ("B", "", .vPtr tPInt (some 5))])
      false false initState).map DState.out :=
  shared_sibling_refs_render_fully dcfg [(4, .vInt tInt 9), (5, .vInt tInt 9)]
    1 tPInt 4 5 (.vInt tInt 9) initState rfl (by unfold NodupKeys; decide)
    rfl rfl (by decide) (by decide) (by decide) (by decide)

/-! ### Claim machinery: termination on finite reference unfoldings

`groundN H n v` certifies that `n` units of fuel suffice to dump `v`
over heap `H`: a value's reference unfolding is finite, with every
reference chain — of any length, through pointer cells and transparent
interface wrappings alike — reaching within the fuel a nil or dangling
reference or a non-reference cell whose contents are themselves
certified at the remaining fuel.  On a reference cycle no fuel
certifies the value — exactly the situation where the chain walk can
diverge. -/

def groundN (H : HeapT) : Nat → GoValue → Bool
  | 0, _ => false
  | Nat.succ m, v =>
    match v with
    | .vPtr _ none => true
    | .vPtr _ (some a) =>
      match lookupHeap H a with
      | none => true
      | some (.vIface _ none) => true
      | some (.vIface _ (some w2)) => groundN H m w2
      | some w => groundN H m w
    | .vSlice _ _ elems => elems.all (fun e => groundN H m (unpackValue e).1)
    | .vArray _ elems => elems.all (fun e => groundN H m (unpackValue e).1)
    | .vMap _ _ pairs =>
      pairs.all (fun p =>
        groundN H m (unpackValue p.1).1 && groundN H m (unpackValue p.2).1)
    | .vStruct _ fields => fields.all (fun f => groundN H m (unpackValue f.2.2).1)
    | _ => true

/-- Certification is monotone in the fuel. -/
theorem groundN_mono (H : HeapT) : ∀ (n : Nat) (v : GoValue),
    groundN H n v = true → groundN H (n + 1) v = true := by
  intro n
  induction n with
  | zero => intro v h; exact absurd h (by simp [groundN])
  | succ m ih =>
    intro v h
    cases v with
    | vPtr ty oa =>
      cases oa with
      | none => rfl
      | some a =>
        simp only [groundN] at h ⊢
        cases hl : lookupHeap H a with
        | none => simp [hl]
        | some w =>
          cases w with
          | vIface ity ov =>
            cases ov with
            | none => simp [hl]
            | some w2 =>
              simp only [hl] at h ⊢
              exact ih w2 h
          | vInvalid => simp [hl]
          | vBool t x => simp [hl]
          | vInt t x => simp [hl]
          | vUint t x => simp [hl]
          | vFloat t x => simp [hl]
          | vComplex t x => simp [hl]
          | vString t x => simp [hl]
          | vUintptr t x => simp [hl]
          | vChanFunc t x => simp [hl]
          | vPtr t oa2 => simp only [hl] at h ⊢; exact ih _ h
          | vSlice t nl es => simp only [hl] at h ⊢; exact ih _ h
          | vArray t es => simp only [hl] at h ⊢; exact ih _ h
          | vMap t nl ps => simp only [hl] at h ⊢; exact ih _ h
          | vStruct t fs => simp only [hl] at h ⊢; exact ih _ h
          | vOther t s2 => simp [hl]
    | vSlice ty nl elems =>
      simp only [groundN] at h ⊢
      rw [List.all_eq_true] at h ⊢
      exact fun x hx => ih _ (h x hx)
    | vArray ty elems =>
      simp only [groundN] at h ⊢
      rw [List.all_eq_true] at h ⊢
      exact fun x hx => ih _ (h x hx)
    | vMap ty nl pairs =>
      simp only [groundN] at h ⊢
      rw [List.all_eq_true] at h ⊢
      intro x hx
      have hx2 := h x hx
      rw [Bool.and_eq_true] at hx2 ⊢
      exact ⟨ih _ hx2.1, ih _ hx2.2⟩
    | vStruct ty fields =>
      simp only [groundN] at h ⊢
      rw [List.all_eq_true] at h ⊢
      exact fun x hx => ih _ (h x hx)
    | vInvalid => rfl
    | vBool t x => rfl
    | vInt t x => rfl
    | vUint t x => rfl
    | vFloat t x => rfl
    | vComplex t x => rfl
    | vString t x => rfl
    | vUintptr t x => rfl
    | vChanFunc t x => rfl
    | vIface t ov => rfl
    | vOther t s2 => rfl

theorem groundN_mono_le (H : HeapT) {k m : Nat} (hkm : k ≤ m) :
    ∀ v, groundN H k v = true → groundN H m v = true := by
  induction hkm with
  | refl => exact fun v h => h
  | step hm ih => exact fun v h => groundN_mono H _ v (ih v h)

/-- The chain walk terminates on every certified value: it exits with
the nil or circular flag, or with a final value certified at a fuel
strictly below the walk's own whenever at least one link was taken. -/
theorem chainWalk_total (cfg : ConfigState) (H : HeapT) (δ : Nat) :
    ∀ (f : Nat) (v : GoValue) (ind : Nat) (p : PtrMap) (ch : List Addr),
      groundN H f v = true →
      ∃ nf cf ind' ve p1 ch1,
        chainWalk cfg H δ f v ind p ch = some (nf, cf, ind', ve, p1, ch1) ∧
        (nf = true ∨ cf = true ∨
          ∃ k, k ≤ f ∧ (isPtrV v = true → k < f) ∧ groundN H k ve = true) := by
  intro f
  induction f with
  | zero => intro v ind p ch h; exact absurd h (by simp [groundN])
  | succ n ih =>
    intro v ind p ch h
    cases v with
    | vPtr ty oa =>
      cases oa with
      | none =>
        exact ⟨true, false, ind, .vPtr ty none, p, ch, rfl, Or.inl rfl⟩
      | some a =>
        cases hB : (match lookupPtr p a with
          | some pd => decide (pd < δ)
          | none => false) with
        | true =>
          refine ⟨false, true, ind + 1 - 1, .vPtr ty (some a), p,
            if cfg.CommentPointers then ch ++ [a] else ch,
            by simp [chainWalk, hB], Or.inr (Or.inl rfl)⟩
        | false =>
          cases hl : lookupHeap H a with
          | none =>
            refine ⟨true, false, ind + 1, .vPtr ty (some a), insertPtr p a δ,
              if cfg.CommentPointers then ch ++ [a] else ch,
              by simp [chainWalk, hB, hl], Or.inl rfl⟩
          | some w =>
            cases w with
            | vIface ity ov =>
              cases ov with
              | none =>
                refine ⟨true, false, ind + 1, .vIface ity none, insertPtr p a δ,
                  if cfg.CommentPointers then ch ++ [a] else ch,
                  by simp [chainWalk, hB, hl], Or.inl rfl⟩
              | some w2 =>
                simp only [groundN, hl] at h
                obtain ⟨nf, cf, ind2, ve, p2, ch2, hcw, hdisj⟩ :=
                  ih w2 (ind + 1) (insertPtr p a δ)
                    (if cfg.CommentPointers then ch ++ [a] else ch) h
                refine ⟨nf, cf, ind2, ve, p2, ch2,
                  by simp [chainWalk, hB, hl, hcw], ?_⟩
                rcases hdisj with h1 | h2 | ⟨k, hk, _, hg⟩
                · exact Or.inl h1
                · exact Or.inr (Or.inl h2)
                · exact Or.inr (Or.inr
                    ⟨k, Nat.le_succ_of_le hk, fun _ => Nat.lt_succ_of_le hk, hg⟩)
            | vInvalid =>
              simp only [groundN, hl] at h
              obtain ⟨nf, cf, ind2, ve, p2, ch2, hcw, hdisj⟩ :=
                ih _ (ind + 1) (insertPtr p a δ)
                  (if cfg.CommentPointers then ch ++ [a] else ch) h
              refine ⟨nf, cf, ind2, ve, p2, ch2,
                by simp [chainWalk, hB, hl, hcw], ?_⟩
              rcases hdisj with h1 | h2 | ⟨k, hk, _, hg⟩
              · exact Or.inl h1
              · exact Or.inr (Or.inl h2)
              · exact Or.inr (Or.inr
                  ⟨k, Nat.le_succ_of_le hk, fun _ => Nat.lt_succ_of_le hk, hg⟩)
            | vBool t x =>
              simp only [groundN, hl] at h
              obtain ⟨nf, cf, ind2, ve, p2, ch2, hcw, hdisj⟩ :=
                ih _ (ind + 1) (insertPtr p a δ)
                  (if cfg.CommentPointers then ch ++ [a] else ch) h
              refine ⟨nf, cf, ind2, ve, p2, ch2,
                by simp [chainWalk, hB, hl, hcw], ?_⟩
              rcases hdisj with h1 | h2 | ⟨k, hk, _, hg⟩
              · exact Or.inl h1
              · exact Or.inr (Or.inl h2)
              · exact Or.inr (Or.inr
                  ⟨k, Nat.le_succ_of_le hk, fun _ => Nat.lt_succ_of_le hk, hg⟩)
            | vInt t x =>
              simp only [groundN, hl] at h
              obtain ⟨nf, cf, ind2, ve, p2, ch2, hcw, hdisj⟩ :=
                ih _ (ind + 1) (insertPtr p a δ)
                  (if cfg.CommentPointers then ch ++ [a] else ch) h
              refine ⟨nf, cf, ind2, ve, p2, ch2,
                by simp [chainWalk, hB, hl, hcw], ?_⟩
              rcases hdisj with h1 | h2 | ⟨k, hk, _, hg⟩
              · exact Or.inl h1
              · exact Or.inr (Or.inl h2)
              · exact Or.inr (Or.inr
                  ⟨k, Nat.le_succ_of_le hk, fun _ => Nat.lt_succ_of_le hk, hg⟩)
            | vUint t x =>
              simp only [groundN, hl] at h
              obtain ⟨nf, cf, ind2, ve, p2, ch2, hcw, hdisj⟩ :=
                ih _ (ind + 1) (insertPtr p a δ)
                  (if cfg.CommentPointers then ch ++ [a] else ch) h
              refine ⟨nf, cf, ind2, ve, p2, ch2,
                by simp [chainWalk, hB, hl, hcw], ?_⟩
              rcases hdisj with h1 | h2 | ⟨k, hk, _, hg⟩
              · exact Or.inl h1
              · exact Or.inr (Or.inl h2)
              · exact Or.inr (Or.inr
                  ⟨k, Nat.le_succ_of_le hk, fun _ => Nat.lt_succ_of_le hk, hg⟩)
            | vFloat t x =>
              simp only [groundN, hl] at h
              obtain ⟨nf, cf, ind2, ve, p2, ch2, hcw, hdisj⟩ :=
                ih _ (ind + 1) (insertPtr p a δ)
                  (if cfg.CommentPointers then ch ++ [a] else ch) h
              refine ⟨nf, cf, ind2, ve, p2, ch2,
                by simp [chainWalk, hB, hl, hcw], ?_⟩
              rcases hdisj with h1 | h2 | ⟨k, hk, _, hg⟩
              · exact Or.inl h1
              · exact Or.inr (Or.inl h2)
              · exact Or.inr (Or.inr
                  ⟨k, Nat.le_succ_of_le hk, fun _ => Nat.lt_succ_of_le hk, hg⟩)
            | vComplex t x =>
              simp only [groundN, hl] at h
              obtain ⟨nf, cf, ind2, ve, p2, ch2, hcw, hdisj⟩ :=
                ih _ (ind + 1) (insertPtr p a δ)
                  (if cfg.CommentPointers then ch ++ [a] else ch) h
              refine ⟨nf, cf, ind2, ve, p2, ch2,
                by simp [chainWalk, hB, hl, hcw], ?_⟩
              rcases hdisj with h1 | h2 | ⟨k, hk, _, hg⟩
              · exact Or.inl h1
              · exact Or.inr (Or.inl h2)
              · exact Or.inr (Or.inr
                  ⟨k, Nat.le_succ_of_le hk, fun _ => Nat.lt_succ_of_le hk, hg⟩)
            | vString t x =>
              simp only [groundN, hl] at h
              obtain ⟨nf, cf, ind2, ve, p2, ch2, hcw, hdisj⟩ :=
                ih _ (ind + 1) (insertPtr p a δ)
                  (if cfg.CommentPointers then ch ++ [a] else ch) h
              refine ⟨nf, cf, ind2, ve, p2, ch2,
                by simp [chainWalk, hB, hl, hcw], ?_⟩
              rcases hdisj with h1 | h2 | ⟨k, hk, _, hg⟩
              · exact Or.inl h1
              · exact Or.inr (Or.inl h2)
              · exact Or.inr (Or.inr
                  ⟨k, Nat.le_succ_of_le hk, fun _ => Nat.lt_succ_of_le hk, hg⟩)
            | vUintptr t x =>
              simp only [groundN, hl] at h
              obtain ⟨nf, cf, ind2, ve, p2, ch2, hcw, hdisj⟩ :=
                ih _ (ind + 1) (insertPtr p a δ)
                  (if cfg.CommentPointers then ch ++ [a] else ch) h
              refine ⟨nf, cf, ind2, ve, p2, ch2,
                by simp [chainWalk, hB, hl, hcw], ?_⟩
              rcases hdisj with h1 | h2 | ⟨k, hk, _, hg⟩
              · exact Or.inl h1
              · exact Or.inr (Or.inl h2)
              · exact Or.inr (Or.inr
                  ⟨k, Nat.le_succ_of_le hk, fun _ => Nat.lt_succ_of_le hk, hg⟩)
            | vChanFunc t x =>
              simp only [groundN, hl] at h
              obtain ⟨nf, cf, ind2, ve, p2, ch2, hcw, hdisj⟩ :=
                ih _ (ind + 1) (insertPtr p a δ)
                  (if cfg.CommentPointers then ch ++ [a] else ch) h
              refine ⟨nf, cf, ind2, ve, p2, ch2,
                by simp [chainWalk, hB, hl, hcw], ?_⟩
              rcases hdisj with h1 | h2 | ⟨k, hk, _, hg⟩
              · exact Or.inl h1
              · exact Or.inr (Or.inl h2)
              · exact Or.inr (Or.inr
                  ⟨k, Nat.le_succ_of_le hk, fun _ => Nat.lt_succ_of_le hk, hg⟩)
            | vPtr t oa2 =>
              simp only [groundN, hl] at h
              obtain ⟨nf, cf, ind2, ve, p2, ch2, hcw, hdisj⟩ :=
                ih _ (ind + 1) (insertPtr p a δ)
                  (if cfg.CommentPointers then ch ++ [a] else ch) h
              refine ⟨nf, cf, ind2, ve, p2, ch2,
                by simp [chainWalk, hB, hl, hcw], ?_⟩
              rcases hdisj with h1 | h2 | ⟨k, hk, _, hg⟩
              · exact Or.inl h1
              · exact Or.inr (Or.inl h2)
              · exact Or.inr (Or.inr
                  ⟨k, Nat.le_succ_of_le hk, fun _ => Nat.lt_succ_of_le hk, hg⟩)
            | vSlice t nl es =>
              simp only [groundN, hl] at h
              obtain ⟨nf, cf, ind2, ve, p2, ch2, hcw, hdisj⟩ :=
                ih _ (ind + 1) (insertPtr p a δ)
                  (if cfg.CommentPointers then ch ++ [a] else ch) h
              refine ⟨nf, cf, ind2, ve, p2, ch2,
                by simp [chainWalk, hB, hl, hcw], ?_⟩
              rcases hdisj with h1 | h2 | ⟨k, hk, _, hg⟩
              · exact Or.inl h1
              · exact Or.inr (Or.inl h2)
              · exact Or.inr (Or.inr
                  ⟨k, Nat.le_succ_of_le hk, fun _ => Nat.lt_succ_of_le hk, hg⟩)
            | vArray t es =>
              simp only [groundN, hl] at h
              obtain ⟨nf, cf, ind2, ve, p2, ch2, hcw, hdisj⟩ :=
                ih _ (ind + 1) (insertPtr p a δ)
                  (if cfg.CommentPointers then ch ++ [a] else ch) h
              refine ⟨nf, cf, ind2, ve, p2, ch2,
                by simp [chainWalk, hB, hl, hcw], ?_⟩
              rcases hdisj with h1 | h2 | ⟨k, hk, _, hg⟩
              · exact Or.inl h1
              · exact Or.inr (Or.inl h2)
              · exact Or.inr (Or.inr
                  ⟨k, Nat.le_succ_of_le hk, fun _ => Nat.lt_succ_of_le hk, hg⟩)
            | vMap t nl ps =>
              simp only [groundN, hl] at h
              obtain ⟨nf, cf, ind2, ve, p2, ch2, hcw, hdisj⟩ :=
                ih _ (ind + 1) (insertPtr p a δ)
                  (if cfg.CommentPointers then ch ++ [a] else ch) h
              refine ⟨nf, cf, ind2, ve, p2, ch2,
                by simp [chainWalk, hB, hl, hcw], ?_⟩
              rcases hdisj with h1 | h2 | ⟨k, hk, _, hg⟩
              · exact Or.inl h1
              · exact Or.inr (Or.inl h2)
              · exact Or.inr (Or.inr
                  ⟨k, Nat.le_succ_of_le hk, fun _ => Nat.lt_succ_of_le hk, hg⟩)
            | vStruct t fs =>
              simp only [groundN, hl] at h
              obtain ⟨nf, cf, ind2, ve, p2, ch2, hcw, hdisj⟩ :=
                ih _ (ind + 1) (insertPtr p a δ)
                  (if cfg.CommentPointers then ch ++ [a] else ch) h
              refine ⟨nf, cf, ind2, ve, p2, ch2,
                by simp [chainWalk, hB, hl, hcw], ?_⟩
              rcases hdisj with h1 | h2 | ⟨k, hk, _, hg⟩
              · exact Or.inl h1
              · exact Or.inr (Or.inl h2)
              · exact Or.inr (Or.inr
                  ⟨k, Nat.le_succ_of_le hk, fun _ => Nat.lt_succ_of_le hk, hg⟩)
            | vOther t s2 =>
              simp only [groundN, hl] at h
              obtain ⟨nf, cf, ind2, ve, p2, ch2, hcw, hdisj⟩ :=
                ih _ (ind + 1) (insertPtr p a δ)
                  (if cfg.CommentPointers then ch ++ [a] else ch) h
              refine ⟨nf, cf, ind2, ve, p2, ch2,
                by simp [chainWalk, hB, hl, hcw], ?_⟩
              rcases hdisj with h1 | h2 | ⟨k, hk, _, hg⟩
              · exact Or.inl h1
              · exact Or.inr (Or.inl h2)
              · exact Or.inr (Or.inr
                  ⟨k, Nat.le_succ_of_le hk, fun _ => Nat.lt_succ_of_le hk, hg⟩)
    | vInvalid =>
      refine ⟨false, false, ind, _, p, ch, chainWalk_nonPtr (by rfl) n ind p ch,
        Or.inr (Or.inr ⟨Nat.succ n, Nat.le_refl _, ?_, h⟩)⟩
      intro hc
      exact absurd hc (by simp [isPtrV])
    | vBool t x =>
      refine ⟨false, false, ind, _, p, ch, chainWalk_nonPtr (by rfl) n ind p ch,
        Or.inr (Or.inr ⟨Nat.succ n, Nat.le_refl _, ?_, h⟩)⟩
      intro hc
      exact absurd hc (by simp [isPtrV])
    | vInt t x =>
      refine ⟨false, false, ind, _, p, ch, chainWalk_nonPtr (by rfl) n ind p ch,
        Or.inr (Or.inr ⟨Nat.succ n, Nat.le_refl _, ?_, h⟩)⟩
      intro hc
      exact absurd hc (by simp [isPtrV])
    | vUint t x =>
      refine ⟨false, false, ind, _, p, ch, chainWalk_nonPtr (by rfl) n ind p ch,
        Or.inr (Or.inr ⟨Nat.succ n, Nat.le_refl _, ?_, h⟩)⟩
      intro hc
      exact absurd hc (by simp [isPtrV])
    | vFloat t x =>
      refine ⟨false, false, ind, _, p, ch, chainWalk_nonPtr (by rfl) n ind p ch,
        Or.inr (Or.inr ⟨Nat.succ n, Nat.le_refl _, ?_, h⟩)⟩
      intro hc
      exact absurd hc (by simp [isPtrV])
    | vComplex t x =>
      refine ⟨false, false, ind, _, p, ch, chainWalk_nonPtr (by rfl) n ind p ch,
        Or.inr (Or.inr ⟨Nat.succ n, Nat.le_refl _, ?_, h⟩)⟩
      intro hc
      exact absurd hc (by simp [isPtrV])
    | vString t x =>
      refine ⟨false, false, ind, _, p, ch, chainWalk_nonPtr (by rfl) n ind p ch,
        Or.inr (Or.inr ⟨Nat.succ n, Nat.le_refl _, ?_, h⟩)⟩
      intro hc
      exact absurd hc (by simp [isPtrV])
    | vUintptr t x =>
      refine ⟨false, false, ind, _, p, ch, chainWalk_nonPtr (by rfl) n ind p ch,
        Or.inr (Or.inr ⟨Nat.succ n, Nat.le_refl _, ?_, h⟩)⟩
      intro hc
      exact absurd hc (by simp [isPtrV])
    | vChanFunc t x =>
      refine ⟨false, false, ind, _, p, ch, chainWalk_nonPtr (by rfl) n ind p ch,
        Or.inr (Or.inr ⟨Nat.succ n, Nat.le_refl _, ?_, h⟩)⟩
      intro hc
      exact absurd hc (by simp [isPtrV])
    | vIface t ov =>
      refine ⟨false, false, ind, _, p, ch, chainWalk_nonPtr (by rfl) n ind p ch,
        Or.inr (Or.inr ⟨Nat.succ n, Nat.le_refl _, ?_, h⟩)⟩
      intro hc
      exact absurd hc (by simp [isPtrV])
    | vSlice t nl es =>
      refine ⟨false, false, ind, _, p, ch, chainWalk_nonPtr (by rfl) n ind p ch,
        Or.inr (Or.inr ⟨Nat.succ n, Nat.le_refl _, ?_, h⟩)⟩
      intro hc
      exact absurd hc (by simp [isPtrV])
    | vArray t es =>
      refine ⟨false, false, ind, _, p, ch, chainWalk_nonPtr (by rfl) n ind p ch,
        Or.inr (Or.inr ⟨Nat.succ n, Nat.le_refl _, ?_, h⟩)⟩
      intro hc
      exact absurd hc (by simp [isPtrV])
    | vMap t nl ps =>
      refine ⟨false, false, ind, _, p, ch, chainWalk_nonPtr (by rfl) n ind p ch,
        Or.inr (Or.inr ⟨Nat.succ n, Nat.le_refl _, ?_, h⟩)⟩
      intro hc
      exact absurd hc (by simp [isPtrV])
    | vStruct t fs =>
      refine ⟨false, false, ind, _, p, ch, chainWalk_nonPtr (by rfl) n ind p ch,
        Or.inr (Or.inr ⟨Nat.succ n, Nat.le_refl _, ?_, h⟩)⟩
      intro hc
      exact absurd hc (by simp [isPtrV])
    | vOther t s2 =>
      refine ⟨false, false, ind, _, p, ch, chainWalk_nonPtr (by rfl) n ind p ch,
        Or.inr (Or.inr ⟨Nat.succ n, Nat.le_refl _, ?_, h⟩)⟩
      intro hc
      exact absurd hc (by simp [isPtrV])

/-- First chain-walk step when the cycle check fires: the loop stops
with the circular flag, undoing the indirection count. -/
theorem chainWalk_hit {cfg : ConfigState} {H : HeapT} {δ : Nat} (ty : TypeInfo)
    {a : Addr} (f ind : Nat) (p : PtrMap) (ch : List Addr)
    (hhit : (match lookupPtr p a with
      | some pd => decide (pd < δ)
      | none => false) = true) :
    chainWalk cfg H δ (Nat.succ f) (.vPtr ty (some a)) ind p ch =
      some (false, true, ind + 1 - 1, .vPtr ty (some a), p,
        if cfg.CommentPointers then ch ++ [a] else ch) := by
  simp [chainWalk, hhit]

/-- First chain-walk step on a dangling address: treated as nil. -/
theorem chainWalk_dangling {cfg : ConfigState} {H : HeapT} {δ : Nat}
    (ty : TypeInfo) {a : Addr} (f ind : Nat) (p : PtrMap) (ch : List Addr)
    (hmiss : (match lookupPtr p a with
      | some pd => decide (pd < δ)
      | none => false) = false)
    (hH : lookupHeap H a = none) :
    chainWalk cfg H δ (Nat.succ f) (.vPtr ty (some a)) ind p ch =
      some (true, false, ind + 1, .vPtr ty (some a), insertPtr p a δ,
        if cfg.CommentPointers then ch ++ [a] else ch) := by
  simp [chainWalk, hmiss, hH]

theorem dumpElemsGo_total {dmp : DumpRec} {P : GoValue → Bool}
    (hdmp : ∀ v wp s st, P v = true → (dmp v wp s st).isSome = true) :
    ∀ (l : List GoValue) (st : DState),
      l.all (fun e => P (unpackValue e).1) = true →
      (dumpElemsGo dmp l st).isSome = true := by
  intro l
  induction l with
  | nil => intro st _; rfl
  | cons vi rest ih =>
    intro st hall
    simp only [List.all_cons, Bool.and_eq_true] at hall
    rcases hu : unpackValue vi with ⟨v, wp, s⟩
    simp only [dumpElemsGo, hu]
    obtain ⟨st2, hd⟩ := Option.isSome_iff_exists.mp
      (hdmp v wp s st (by rw [hu] at hall; exact hall.1))
    rw [hd]
    exact ih _ hall.2

theorem dumpPairsGo_total {dmp : DumpRec} {P : GoValue → Bool}
    (hdmp : ∀ v wp s st, P v = true → (dmp v wp s st).isSome = true) :
    ∀ (l : List (GoValue × GoValue)) (st : DState),
      l.all (fun p => P (unpackValue p.1).1 && P (unpackValue p.2).1) = true →
      (dumpPairsGo dmp l st).isSome = true := by
  intro l
  induction l with
  | nil => intro st _; rfl
  | cons kv rest ih =>
    intro st hall
    simp only [List.all_cons, Bool.and_eq_true] at hall
    obtain ⟨⟨hk, hv⟩, hrest⟩ := hall
    obtain ⟨k, val⟩ := kv
    rcases hu : unpackValue k with ⟨kv', kp, ks⟩
    rcases hu2 : unpackValue val with ⟨vv, vp, vs⟩
    simp only [dumpPairsGo, hu, hu2]
    obtain ⟨st2, hd⟩ := Option.isSome_iff_exists.mp
      (hdmp kv' kp ks st (by rw [hu] at hk; exact hk))
    rw [hd]
    dsimp only
    obtain ⟨st3, hd2⟩ := Option.isSome_iff_exists.mp
      (hdmp vv vp vs (afterColon st2) (by rw [hu2] at hv; exact hv))
    rw [hd2]
    exact ih _ hrest

theorem dumpFieldsGo_total {cfg : ConfigState} {dmp : DumpRec} {P : GoValue → Bool}
    (hdmp : ∀ v wp s st, P v = true → (dmp v wp s st).isSome = true) :
    ∀ (l : List (String × String × GoValue)) (st : DState),
      l.all (fun f => P (unpackValue f.2.2).1) = true →
      (dumpFieldsGo cfg dmp l st).isSome = true := by
  intro l
  induction l with
  | nil => intro st _; rfl
  | cons fld rest ih =>
    intro st hall
    simp only [List.all_cons, Bool.and_eq_true] at hall
    obtain ⟨fname, fpkg, fv⟩ := fld
    rcases hu : unpackValue fv with ⟨v, wp, s⟩
    simp only [dumpFieldsGo, hu]
    by_cases hskip : (cfg.IgnoreUnexported && fpkg != "") = true
    · rw [if_pos hskip]
      exact ih st hall.2
    · rw [if_neg hskip]
      obtain ⟨st2, hd⟩ := Option.isSome_iff_exists.mp
        (hdmp v wp s (fieldPrefix cfg fname st) (by rw [hu] at hall; exact hall.1))
      rw [hd]
      exact ih _ hall.2

theorem dumpSliceGo_total {cfg : ConfigState} {dmp : DumpRec} {P : GoValue → Bool}
    (hdmp : ∀ v wp s st, P v = true → (dmp v wp s st).isSome = true)
    (l : List GoValue) (st : DState)
    (hall : l.all (fun e => P (unpackValue e).1) = true) :
    (dumpSliceGo cfg dmp l st).isSome = true := by
  unfold dumpSliceGo
  cases hb : dumpSliceBytes? l with
  | some buf => rfl
  | none => exact dumpElemsGo_total hdmp l st hall

theorem dumpNonPtrGo_total {cfg : ConfigState} {H : HeapT} {dmp : DumpRec} {m : Nat}
    (hdmp : ∀ v wp s st, groundN H m v = true → (dmp v wp s st).isSome = true) :
    ∀ (v : GoValue) (wp s : Bool) (st : DState),
      groundN H (m + 1) v = true →
      (dumpNonPtrGo cfg dmp v wp s st).isSome = true := by
  intro v wp s st h
  cases v with
  | vSlice ty nil elems =>
    cases nil with
    | true => rfl
    | false =>
      simp only [groundN] at h
      simp only [dumpNonPtrGo]
      obtain ⟨st2, hres⟩ := Option.isSome_iff_exists.mp
        (dumpSliceGo_total hdmp elems _ h)
      rw [hres]
      rfl
  | vArray ty elems =>
    simp only [groundN] at h
    simp only [dumpNonPtrGo]
    obtain ⟨st2, hres⟩ := Option.isSome_iff_exists.mp
      (dumpSliceGo_total hdmp elems _ h)
    rw [hres]
    rfl
  | vMap ty nil pairs =>
    cases nil with
    | true => rfl
    | false =>
      simp only [groundN] at h
      have hall : (if cfg.SortKeys then sortMapPairs pairs else pairs).all
          (fun p => groundN H m (unpackValue p.1).1 &&
            groundN H m (unpackValue p.2).1) = true := by
        split
        · rw [List.all_eq_true] at h ⊢
          exact fun x hx => h x ((sortMapPairs_perm pairs).subset hx)
        · exact h
      simp only [dumpNonPtrGo]
      obtain ⟨st2, hres⟩ := Option.isSome_iff_exists.mp
        (dumpPairsGo_total hdmp _ _ hall)
      rw [hres]
      rfl
  | vStruct ty fields =>
    simp only [groundN] at h
    simp only [dumpNonPtrGo]
    obtain ⟨st2, hres⟩ := Option.isSome_iff_exists.mp
      (dumpFieldsGo_total hdmp fields _ h)
    rw [hres]
    rfl
  | vIface ty ov => cases ov <;> rfl
  | vInvalid => rfl
  | vPtr ty oa => rfl
  | vBool ty b => rfl
  | vInt ty i => rfl
  | vUint ty u => rfl
  | vFloat ty x => rfl
  | vComplex ty x => rfl
  | vString ty x => rfl
  | vUintptr ty u => rfl
  | vChanFunc ty a => rfl
  | vOther ty text => rfl

/-- Totality on certified values: `groundN H n v` fuel suffices. -/
theorem dump_total (cfg : ConfigState) (H : HeapT) :
    ∀ (n : Nat) (v : GoValue) (wp s : Bool) (st : DState),
      groundN H n v = true → (dumpFuel cfg H n v wp s st).isSome = true := by
  intro n
  induction n with
  | zero => intro v wp s st h; exact absurd h (by simp [groundN])
  | succ m ih =>
    intro v wp s st h
    cases v with
    | vInvalid => rfl
    | vPtr ty oa =>
      have hstep : dumpFuel cfg H (m + 1) (.vPtr ty oa) wp s st =
          dumpPtrGo cfg H (fun v' wp' s' st' => dumpFuel cfg H m v' wp' s' st')
            (m + 1) (.vPtr ty oa) (indentD cfg st) := rfl
      rw [hstep]
      simp only [dumpPtrGo]
      obtain ⟨nf, cf, ind', ve, p1, ch1, hcw, hdisj⟩ :=
        chainWalk_total cfg H (indentD cfg st).depth (m + 1) (.vPtr ty oa) 0
          (purgePtr (indentD cfg st).depth (indentD cfg st).pointers) [] h
      simp only [hcw]
      cases nf with
      | true => simp
      | false =>
        cases cf with
        | true => simp
        | false =>
          rcases hdisj with h1 | h2 | ⟨k, hk, hlt, hg⟩
          · exact absurd h1 (by simp)
          · exact absurd h2 (by simp)
          · have hgm : groundN H m ve = true :=
              groundN_mono_le H (Nat.lt_succ_iff.mp (hlt rfl)) ve hg
            obtain ⟨stR, hR⟩ := Option.isSome_iff_exists.mp
              (ih ve true false (suppressType (ptrHeader ind' (typeOf ve).str ch1
                (withPointers p1 (indentD cfg st)))) hgm)
            simp [hR]
    | vBool ty b =>
      exact dumpNonPtrGo_total (fun v' wp' s' st' h' => ih v' wp' s' st' h') _ wp s st h
    | vInt ty i =>
      exact dumpNonPtrGo_total (fun v' wp' s' st' h' => ih v' wp' s' st' h') _ wp s st h
    | vUint ty u =>
      exact dumpNonPtrGo_total (fun v' wp' s' st' h' => ih v' wp' s' st' h') _ wp s st h
    | vFloat ty x =>
      exact dumpNonPtrGo_total (fun v' wp' s' st' h' => ih v' wp' s' st' h') _ wp s st h
    | vComplex ty x =>
      exact dumpNonPtrGo_total (fun v' wp' s' st' h' => ih v' wp' s' st' h') _ wp s st h
    | vString ty x =>
      exact dumpNonPtrGo_total (fun v' wp' s' st' h' => ih v' wp' s' st' h') _ wp s st h
    | vUintptr ty u =>
      exact dumpNonPtrGo_total (fun v' wp' s' st' h' => ih v' wp' s' st' h') _ wp s st h
    | vChanFunc ty a =>
      exact dumpNonPtrGo_total (fun v' wp' s' st' h' => ih v' wp' s' st' h') _ wp s st h
    | vOther ty text =>
      exact dumpNonPtrGo_total (fun v' wp' s' st' h' => ih v' wp' s' st' h') _ wp s st h
    | vIface ty ov =>
      exact dumpNonPtrGo_total (fun v' wp' s' st' h' => ih v' wp' s' st' h') _ wp s st h
    | vSlice ty nil elems =>
      exact dumpNonPtrGo_total (fun v' wp' s' st' h' => ih v' wp' s' st' h') _ wp s st h
    | vArray ty elems =>
      exact dumpNonPtrGo_total (fun v' wp' s' st' h' => ih v' wp' s' st' h') _ wp s st h
    | vMap ty nil pairs =>
      exact dumpNonPtrGo_total (fun v' wp' s' st' h' => ih v' wp' s' st' h') _ wp s st h
    | vStruct ty fields =>
      exact dumpNonPtrGo_total (fun v' wp' s' st' h' => ih v' wp' s' st' h') _ wp s st h

def tPPInt : TypeInfo := ⟨"**int", "", "", .kPtr⟩

/-- **C1 (amended)**: the traversal terminates on every value whose
reference unfolding through the heap is finite — `groundN` certifies a
concrete fuel bound, covering reference chains of arbitrary length
(multi-level indirection such as `**int`, with transparent interface
links), arbitrary sharing, and nil and dangling references — and a
reference cycle re-entering an address recorded at a strictly smaller
depth also terminates, with the circular marker (the struct-cycle heap
below).  Termination for *arbitrary* reference cycles is false: a
chain returning to a same-depth record (e.g. a self-pointer) evades
the strict `pd < depth` check and the chain walk diverges (see the
counterexample). -/
theorem dump_terminates_on_finite_unfoldings :
    (∀ (cfg : ConfigState) (H : HeapT) (n : Nat) (v : GoValue) (wp s : Bool)
      (st : DState), groundN H n v = true →
        (dumpFuel cfg H n v wp s st).isSome = true) ∧
    (fdump dcfg heapCyc 10 (some (.vPtr tPCyc (some 3)))).isSome = true :=
  ⟨fun cfg H n v wp s st h => dump_total cfg H n v wp s st h, by decide⟩

theorem dump_terminates_on_finite_unfoldings_witness :
    (dumpFuel dcfg [(10, .vPtr tPInt (some 11)), (11, .vInt tInt 5)] 3
      (.vPtr tPPInt (some 10)) false false initState).isSome = true :=
  dump_terminates_on_finite_unfoldings.1 dcfg
    [(10, .vPtr tPInt (some 11)), (11, .vInt tInt 5)] 3
    (.vPtr tPPInt (some 10)) false false initState (by decide)

end Utter
